import Mathlib

/-!
Verification of the Lectria frontend against its specification.

The development shallowly embeds the client-side code of the repository:

* `src/frontend/src/utils/uploadQueue.ts` — the IndexedDB-backed upload
  queue (`updateVideoStatus`, `removeFromQueue`, `clearCompleted`,
  `getQueueForBook`).
* The current `UploadDashboard` component (the copy shipped in the repo
  bundle that uses the persisted queue, `MAX_PARALLEL_UPLOADS = 1`) —
  `processQueue`, `uploadVideo`'s completion handlers, `handleResume`.
* `BookStructure` — `handleUploadAsset`, `handleDeleteAsset`,
  `renderContent`, `moveChapter`, `moveSection`, `moveSectionToChapter`.
* `BooksDashboard` — the polling-interval selection effect.

Modelling conventions:

* A JS string is a `List Char`; `slice`/`trim`/regex scans are embedded
  as explicit character-list functions.
* The IndexedDB object store (`keyPath: 'id'`) is a `List QItem`.  The
  store enforces key uniqueness, so a `put` of a record whose key is
  present is embedded as a pointwise replacement of the records carrying
  that id, and a `delete` as a filter on the id.
* The opaque browser `File` value is represented by its name only; none
  of the modelled operations inspect it.
-/

namespace Lectria

/-! ## Upload-queue data model (uploadQueue.ts) -/

/-- Upload status of a queue item / displayed video:
`'pending' | 'uploading' | 'success' | 'error'`. -/
inductive UStatus where
  | pending
  | uploading
  | success
  | error
deriving DecidableEq, Repr

/-- One record of the `videos` object store (and, equally, one entry of
the `videos` React state of `UploadDashboard`; the displayed entries are
built from the same fields).  `file` stands in for the browser `File`
object, which the modelled code never inspects. -/
structure QItem where
  id : String
  bookId : String
  file : String
  status : UStatus
  progress : Nat
  error : Option String
  addedAt : Nat
deriving DecidableEq, Repr

/-- The `videos` IndexedDB object store, keyed by `id`. -/
abbrev Store := List QItem

/-- `getQueueForBook`: all items of the store whose `bookId` matches. -/
def getQueueForBook (store : Store) (bookId : String) : List QItem :=
  store.filter (fun it => it.bookId = bookId)

/-- `updateVideoStatus(id, status, progress = 0, error?)`: looks the item
up by key; if absent, does nothing; otherwise overwrites `status` and
`progress`, and overwrites `error` only when the `error` argument is
truthy (a non-empty string). -/
def updateVideoStatus (store : Store) (id : String) (status : UStatus)
    (progress : Nat) (err : Option String) : Store :=
  store.map (fun it =>
    if it.id = id then
      { it with
        status := status
        progress := progress
        error := match err with
          | some e => if e = "" then it.error else some e
          | none => it.error }
    else it)

/-- `removeFromQueue(id)`: delete by key. -/
def removeFromQueue (store : Store) (id : String) : Store :=
  store.filter (fun it => ¬ it.id = id)

/-- Whether an item counts as finished for `clearCompleted`. -/
def isCompleted (it : QItem) : Bool :=
  it.status = UStatus.success ∨ it.status = UStatus.error

/-- The `matchesBook` test of `clearCompleted`: `bookId ? item.bookId ===
bookId : true`.  A JS empty string is falsy, hence `some ""` matches
every item, exactly as the source does. -/
def matchesBook (bid : Option String) (it : QItem) : Bool :=
  match bid with
  | some b => if b = "" then true else it.bookId = b
  | none => true

/-- `clearCompleted(bookId?)`: deletes every item that matches the book
filter and has status `'success'` or `'error'`. -/
def clearCompleted (store : Store) (bid : Option String) : Store :=
  store.filter (fun it => ¬ (matchesBook bid it ∧ isCompleted it))

/-! ## C9 / C10 support lemmas -/

theorem map_eq_self_of_not_mem {α : Type} (l : List α) (f : α → α) (p : α → Prop)
    [DecidablePred p] (hf : ∀ x, ¬ p x → f x = x) (h : ∀ x ∈ l, ¬ p x) :
    l.map f = l := by
  induction l with
  | nil => rfl
  | cons a t ih =>
      simp only [List.map_cons]
      rw [hf a (h a (List.mem_cons_self a t)), ih (fun x hx => h x (List.mem_cons_of_mem a hx))]

end Lectria

namespace Lectria

/-! ## Claims C9 and C10 -/

/-- C9. `updateVideoStatus` with an id that is absent from the store
is a no-op; when the id is present, exactly the records with that id are
replaced, their `status` and `progress` overwritten, their `error` field
overwritten only when a non-empty error argument is given, and every
other field and every other item untouched. -/
theorem updateVideoStatus_spec (store : Store) (id : String) (st : UStatus)
    (p : Nat) (err : Option String) :
    ((∀ it ∈ store, it.id ≠ id) → updateVideoStatus store id st p err = store) ∧
    (updateVideoStatus store id st p err).length = store.length ∧
    (∀ i : Nat, ∀ h : i < store.length,
      (updateVideoStatus store id st p err).get ⟨i, by
        simpa [updateVideoStatus] using h⟩ =
      (if (store.get ⟨i, h⟩).id = id then
        { store.get ⟨i, h⟩ with
          status := st
          progress := p
          error := match err with
            | some e => if e = "" then (store.get ⟨i, h⟩).error else some e
            | none => (store.get ⟨i, h⟩).error }
       else store.get ⟨i, h⟩)) := by
  refine ⟨?_, ?_, ?_⟩
  · intro habs
    exact map_eq_self_of_not_mem store _ (fun it => it.id = id)
      (fun x hx => by simp [hx]) (fun x hx => habs x hx)
  · simp [updateVideoStatus]
  · intro i h
    simp [updateVideoStatus, List.getElem_map]

/-- Witness for C9: a concrete two-item store, updated at an absent id
and at a present id. -/
theorem updateVideoStatus_spec_witness :
    (∀ it ∈ ([⟨"a", "b1", "f", UStatus.pending, 0, none, 7⟩] : Store),
        it.id ≠ "zz") ∧
    updateVideoStatus [⟨"a", "b1", "f", UStatus.pending, 0, none, 7⟩] "zz"
      UStatus.error 0 (some "boom") =
      [⟨"a", "b1", "f", UStatus.pending, 0, none, 7⟩] :=
  ⟨by decide,
   (updateVideoStatus_spec [⟨"a", "b1", "f", UStatus.pending, 0, none, 7⟩]
      "zz" UStatus.error 0 (some "boom")).1 (by decide)⟩

/-- C10. `clearCompleted` removes exactly the matching
`'success'`/`'error'` items: the result is a sublist of the store (items
are only deleted, never modified or reordered); an item survives iff it
is not a matching completed item; every `'pending'` or `'uploading'`
item survives; and when a non-empty book id is given, only items of that
book are deleted. -/
theorem clearCompleted_spec (store : Store) (bid : Option String) :
    (clearCompleted store bid).Sublist store ∧
    (∀ it ∈ store,
      (it ∈ clearCompleted store bid ↔ ¬ (matchesBook bid it ∧ isCompleted it))) ∧
    (∀ it ∈ store, (it.status = UStatus.pending ∨ it.status = UStatus.uploading) →
      it ∈ clearCompleted store bid) ∧
    (∀ b : String, bid = some b → b ≠ "" →
      ∀ it ∈ store, it.bookId ≠ b → it ∈ clearCompleted store bid) := by
  refine ⟨List.filter_sublist _, ?_, ?_, ?_⟩
  · intro it hit
    constructor
    · intro hmem
      have h2 : matchesBook bid it = false ∨ isCompleted it = false := by
        simpa using (List.mem_filter.mp hmem).2
      intro hand
      rcases h2 with h | h
      · rw [hand.1] at h; cases h
      · rw [hand.2] at h; cases h
    · intro h
      refine List.mem_filter.mpr ⟨hit, ?_⟩
      by_cases hm : matchesBook bid it = true
      · have hc : isCompleted it = false := by
          cases hc : isCompleted it
          · rfl
          · exact absurd ⟨hm, hc⟩ h
        simp [hm, hc]
      · rw [Bool.not_eq_true] at hm
        simp [hm]
  · intro it hit hst
    have : isCompleted it = false := by
      rcases hst with h | h <;> simp [isCompleted, h]
    simp [clearCompleted, List.mem_filter, hit, this]
  · intro b hb hbne it hit hbid
    subst hb
    have : matchesBook (some b) it = false := by
      simp [matchesBook, hbne, hbid]
    simp [clearCompleted, List.mem_filter, hit, this]

/-! ## UploadDashboard: resume after reload (C3) -/

/-- The reset `handleResume` applies to an interrupted upload:
`{ ...item, status: 'pending', progress: 0 }`. -/
def pendify (it : QItem) : QItem :=
  { it with status := UStatus.pending, progress := 0 }

/-- `handleResume`: re-reads the queue of the current book; every
`'uploading'` item is written back through
`updateVideoStatus(item.id, 'pending', 0)` and displayed as the reset
item, every other item is left as it is and displayed unchanged.
Returns the updated store and the list passed to `setVideos`. -/
def handleResume (store : Store) (bookId : String) : Store × List QItem :=
  (let queueItems := getQueueForBook store bookId
   queueItems.foldl
     (fun st it =>
       if it.status = UStatus.uploading then
         updateVideoStatus st it.id UStatus.pending 0 none
       else st) store,
   (getQueueForBook store bookId).map
     (fun it => if it.status = UStatus.uploading then pendify it else it))

theorem updateVideoStatus_pending_eq_map (st : Store) (id : String) :
    updateVideoStatus st id UStatus.pending 0 none =
      st.map (fun x => if x.id = id then pendify x else x) := by
  unfold updateVideoStatus pendify
  apply List.map_congr_left
  intro x _
  by_cases h : x.id = id <;> simp [h]

theorem foldl_pendify_eq_map (ids : List String) (st : Store) :
    ids.foldl (fun st id => st.map (fun x => if x.id = id then pendify x else x)) st =
      st.map (fun x => if x.id ∈ ids then pendify x else x) := by
  induction ids generalizing st with
  | nil => simp
  | cons i rest ih =>
      rw [List.foldl_cons, ih, List.map_map]
      apply List.map_congr_left
      intro x _
      by_cases hx : x.id = i
      · have hidem : pendify (pendify x) = pendify x := rfl
        have hid : (pendify x).id = x.id := rfl
        simp only [Function.comp_apply, hx, if_pos rfl]
        by_cases hr : (pendify x).id ∈ rest <;>
          simp [hr, hidem, hid, hx, List.mem_cons]
      · simp only [Function.comp_apply, if_neg hx]
        by_cases hr : x.id ∈ rest <;> simp [hr, hx, List.mem_cons]

theorem foldl_cond_eq_foldl_ids (items : List QItem) (st : Store) :
    items.foldl
        (fun st it =>
          if it.status = UStatus.uploading then
            updateVideoStatus st it.id UStatus.pending 0 none
          else st) st =
      ((items.filter (fun it => it.status = UStatus.uploading)).map
          (fun it => it.id)).foldl
        (fun st id => st.map (fun x => if x.id = id then pendify x else x)) st := by
  induction items generalizing st with
  | nil => rfl
  | cons it rest ih =>
      by_cases h : it.status = UStatus.uploading
      · simp only [List.foldl_cons, if_pos h, List.filter_cons,
          decide_eq_true h, List.map_cons]
        rw [updateVideoStatus_pending_eq_map, ih]
        simp [h]
      · simp only [List.foldl_cons, if_neg h, List.filter_cons]
        rw [ih]
        simp [h]

theorem key_inj {store : Store}
    (h : (store.map (fun it => it.id)).Nodup) {x y : QItem}
    (hx : x ∈ store) (hy : y ∈ store) (hid : x.id = y.id) : x = y :=
  List.inj_on_of_nodup_map h hx hy hid

/-- C3. Resume-after-reload: with the store keyed consistently
(distinct ids) and at least one `'pending'`/`'uploading'` item for the
book (the condition under which the resume dialog appears), choosing to
resume rewrites exactly the `'uploading'` items of that book to
`'pending'` with progress 0 — pointwise in the persisted store, and in
the displayed list built from the loaded queue — and leaves every item
with any other status (and every item of another book) unchanged. -/
theorem handleResume_spec (store : Store) (b : String)
    (hnodup : (store.map (fun it => it.id)).Nodup)
    (hpend : ∃ it ∈ getQueueForBook store b,
      it.status = UStatus.pending ∨ it.status = UStatus.uploading) :
    (handleResume store b).1 =
      store.map (fun x =>
        if x.bookId = b ∧ x.status = UStatus.uploading then pendify x else x) ∧
    (handleResume store b).2 =
      (getQueueForBook store b).map
        (fun it => if it.status = UStatus.uploading then pendify it else it) := by
  refine ⟨?_, rfl⟩
  show (getQueueForBook store b).foldl _ store = _
  rw [foldl_cond_eq_foldl_ids, foldl_pendify_eq_map]
  apply List.map_congr_left
  intro x hx
  by_cases hcond : x.bookId = b ∧ x.status = UStatus.uploading
  · have hmem : x.id ∈ ((getQueueForBook store b).filter
        (fun it => it.status = UStatus.uploading)).map (fun it => it.id) := by
      refine List.mem_map_of_mem _ (List.mem_filter.mpr ⟨?_, by simp [hcond.2]⟩)
      exact List.mem_filter.mpr ⟨hx, by simp [getQueueForBook, hcond.1]⟩
    simp [hmem, hcond]
  · have hnmem : x.id ∉ ((getQueueForBook store b).filter
        (fun it => it.status = UStatus.uploading)).map (fun it => it.id) := by
      intro hmem
      rcases List.mem_map.mp hmem with ⟨y, hy, hyid⟩
      have hy2 := List.mem_filter.mp hy
      have hy3 := List.mem_filter.mp hy2.1
      have hxy : y = x := key_inj hnodup hy3.1 hx (by rw [hyid])
      apply hcond
      rw [← hxy]
      refine ⟨by simpa [getQueueForBook] using hy3.2, by simpa using hy2.2⟩
    simp [hnmem, hcond]

/-- Witness for C3: a store holding one interrupted and one finished
item of book `"b1"`. -/
theorem handleResume_spec_witness :
    ((([⟨"a", "b1", "f", UStatus.uploading, 55, none, 1⟩,
        ⟨"b", "b1", "g", UStatus.success, 100, none, 2⟩] : Store).map
          (fun it => it.id)).Nodup ∧
      ∃ it ∈ getQueueForBook
          [⟨"a", "b1", "f", UStatus.uploading, 55, none, 1⟩,
           ⟨"b", "b1", "g", UStatus.success, 100, none, 2⟩] "b1",
        it.status = UStatus.pending ∨ it.status = UStatus.uploading) ∧
    (handleResume
        [⟨"a", "b1", "f", UStatus.uploading, 55, none, 1⟩,
         ⟨"b", "b1", "g", UStatus.success, 100, none, 2⟩] "b1").1 =
      ([⟨"a", "b1", "f", UStatus.uploading, 55, none, 1⟩,
        ⟨"b", "b1", "g", UStatus.success, 100, none, 2⟩] : Store).map
        (fun x =>
          if x.bookId = "b1" ∧ x.status = UStatus.uploading then pendify x
          else x) :=
  ⟨⟨by decide, by decide⟩,
   (handleResume_spec
      [⟨"a", "b1", "f", UStatus.uploading, 55, none, 1⟩,
       ⟨"b", "b1", "g", UStatus.success, 100, none, 2⟩] "b1"
      (by decide) (by decide)).1⟩

/-! ## UploadDashboard: upload completion handling (C6) -/

/-- JS `a || b` on an optional string: the fallback is used when the
value is absent or empty (falsy). -/
def jsOr (d : Option String) (dflt : String) : String :=
  match d with
  | some e => if e = "" then dflt else e
  | none => dflt

/-- Outcome of the upload `XMLHttpRequest` as observed by the `load` and
`error` listeners of `uploadVideo`: an HTTP completion carrying the
response status and the parsed `detail` field, or a network error. -/
inductive UploadOutcome where
  | http (status : Nat) (detail : Option String)
  | netError
deriving DecidableEq, Repr

/-- `uploadVideo`'s completion handling for the item `vid`: on HTTP 201
the displayed item becomes `'success'` with progress 100 and the record
is deleted from the store; on any other HTTP status the displayed item
becomes `'error'` carrying `detail || 'Erro ao fazer upload'` and the
record is rewritten with status `'error'`, progress 0 and that message;
on a network error likewise with `'Erro de conexão'`.  Returns the new
store and the new displayed list. -/
def applyUploadResult (store : Store) (videos : List QItem) (vid : String) :
    UploadOutcome → Store × List QItem
  | UploadOutcome.http s d =>
      if s = 201 then
        (removeFromQueue store vid,
         videos.map (fun v =>
           if v.id = vid then
             { v with status := UStatus.success, progress := 100 }
           else v))
      else
        (updateVideoStatus store vid UStatus.error 0
           (some (jsOr d "Erro ao fazer upload")),
         videos.map (fun v =>
           if v.id = vid then
             { v with status := UStatus.error,
                      error := some (jsOr d "Erro ao fazer upload") }
           else v))
  | UploadOutcome.netError =>
      (updateVideoStatus store vid UStatus.error 0 (some "Erro de conexão"),
       videos.map (fun v =>
         if v.id = vid then
           { v with status := UStatus.error, error := some "Erro de conexão" }
         else v))

theorem jsOr_ne_empty (d : Option String) (dflt : String) (h : dflt ≠ "") :
    jsOr d dflt ≠ "" := by
  unfold jsOr
  match d with
  | none => exact h
  | some e =>
      by_cases he : e = "" <;> simp [he, h]

/-- C6. Upload completion: on HTTP 201 the item leaves the persisted
queue (no record with its id remains, every other record survives) and
its displayed entry becomes `'success'` with progress 100; on any other
HTTP status, and on a network error, the persisted record keeps its
place but is rewritten to `'error'` with progress 0 and the detail (or
connection-error) message, and the displayed entry becomes `'error'`
with the same message. -/
theorem applyUploadResult_spec (store videos : List QItem) (vid : String) :
    (∀ d : Option String,
      (∀ it ∈ (applyUploadResult store videos vid (UploadOutcome.http 201 d)).1,
        it.id ≠ vid) ∧
      (∀ it ∈ store, it.id ≠ vid →
        it ∈ (applyUploadResult store videos vid (UploadOutcome.http 201 d)).1) ∧
      (∀ v ∈ videos, v.id = vid →
        { v with status := UStatus.success, progress := 100 } ∈
          (applyUploadResult store videos vid (UploadOutcome.http 201 d)).2)) ∧
    (∀ (s : Nat) (d : Option String), s ≠ 201 →
      (applyUploadResult store videos vid (UploadOutcome.http s d)).1.length =
          store.length ∧
      (∀ it ∈ store, it.id = vid →
        { it with status := UStatus.error, progress := 0,
                  error := some (jsOr d "Erro ao fazer upload") } ∈
          (applyUploadResult store videos vid (UploadOutcome.http s d)).1) ∧
      (∀ v ∈ videos, v.id = vid →
        { v with status := UStatus.error,
                 error := some (jsOr d "Erro ao fazer upload") } ∈
          (applyUploadResult store videos vid (UploadOutcome.http s d)).2)) ∧
    ((applyUploadResult store videos vid UploadOutcome.netError).1.length =
        store.length ∧
     (∀ it ∈ store, it.id = vid →
       { it with status := UStatus.error, progress := 0,
                 error := some "Erro de conexão" } ∈
         (applyUploadResult store videos vid UploadOutcome.netError).1) ∧
     (∀ v ∈ videos, v.id = vid →
       { v with status := UStatus.error, error := some "Erro de conexão" } ∈
         (applyUploadResult store videos vid UploadOutcome.netError).2)) := by
  refine ⟨?_, ?_, ?_, ?_, ?_⟩
  · intro d
    refine ⟨?_, ?_, ?_⟩
    · intro it hit
      have h2 : it ∈ store ∧ ¬ it.id = vid := by
        simpa [applyUploadResult, removeFromQueue] using hit
      exact h2.2
    · intro it hit hne
      simp only [applyUploadResult, if_pos rfl, removeFromQueue]
      exact List.mem_filter.mpr ⟨hit, by simpa using hne⟩
    · intro v hv hvid
      simp only [applyUploadResult, if_pos rfl]
      have := List.mem_map_of_mem
        (fun v => if v.id = vid then
          { v with status := UStatus.success, progress := 100 } else v) hv
      simpa [hvid] using this
  · intro s d hs
    refine ⟨by simp [applyUploadResult, hs, updateVideoStatus], ?_, ?_⟩
    · intro it hit hvid
      simp only [applyUploadResult, if_neg hs]
      have hne := jsOr_ne_empty d "Erro ao fazer upload" (by decide)
      have := List.mem_map_of_mem (fun it =>
        if it.id = vid then
          { it with status := UStatus.error, progress := 0,
                    error := if jsOr d "Erro ao fazer upload" = ""
                             then it.error
                             else some (jsOr d "Erro ao fazer upload") }
        else it) hit
      simpa [updateVideoStatus, hvid, hne] using this
    · intro v hv hvid
      simp only [applyUploadResult, if_neg hs]
      have := List.mem_map_of_mem (fun v =>
        if v.id = vid then
          { v with status := UStatus.error,
                   error := some (jsOr d "Erro ao fazer upload") }
        else v) hv
      simpa [hvid] using this
  · simp [applyUploadResult, updateVideoStatus]
  · intro it hit hvid
    have := List.mem_map_of_mem (fun it =>
      if it.id = vid then
        { it with status := UStatus.error, progress := 0,
                  error := if ("Erro de conexão" : String) = ""
                           then it.error else some "Erro de conexão" }
      else it) hit
    simpa [applyUploadResult, updateVideoStatus, hvid] using this
  · intro v hv hvid
    have := List.mem_map_of_mem (fun v =>
      if v.id = vid then
        { v with status := UStatus.error, error := some "Erro de conexão" }
      else v) hv
    simpa [applyUploadResult, hvid] using this

/-- Witness for C6: a failed HTTP 500 upload of a concrete one-item
store. -/
theorem applyUploadResult_spec_witness :
    ((500 : Nat) ≠ 201 ∧
      (⟨"a", "b1", "f", UStatus.uploading, 37, none, 3⟩ : QItem) ∈
        ([⟨"a", "b1", "f", UStatus.uploading, 37, none, 3⟩] : Store) ∧
      (⟨"a", "b1", "f", UStatus.uploading, 37, none, 3⟩ : QItem).id = "a") ∧
    (⟨"a", "b1", "f", UStatus.error, 0,
        some (jsOr (some "boom") "Erro ao fazer upload"), 3⟩ : QItem) ∈
      (applyUploadResult [⟨"a", "b1", "f", UStatus.uploading, 37, none, 3⟩]
        [⟨"a", "b1", "f", UStatus.uploading, 37, none, 3⟩] "a"
        (UploadOutcome.http 500 (some "boom"))).1 :=
  ⟨⟨by decide, by decide, by decide⟩,
   ((applyUploadResult_spec [⟨"a", "b1", "f", UStatus.uploading, 37, none, 3⟩]
        [⟨"a", "b1", "f", UStatus.uploading, 37, none, 3⟩] "a").2.1 500
        (some "boom") (by decide)).2.1
      ⟨"a", "b1", "f", UStatus.uploading, 37, none, 3⟩ (by decide) (by decide)⟩

/-! ## UploadDashboard: sequential queue processing (C1) -/

/-- `MAX_PARALLEL_UPLOADS = 1` ("Changed from 3 to 1 (sequential
uploads)") in the current `UploadDashboard`. -/
def MAX_PARALLEL_UPLOADS : Nat := 1

/-- Number of displayed items currently `'uploading'`. -/
def countUploading (vs : List QItem) : Nat :=
  (vs.filter (fun v => v.status = UStatus.uploading)).length

/-- The loop of `processQueue`: marks the first `k` `'pending'` items as
`'uploading'`.  (The source marks `pendingVideos[i]` through its id via
a functional `setVideos`; since items are keyed by unique ids this is
the positional effect.) -/
def markFirstPending : Nat → List QItem → List QItem
  | 0, vs => vs
  | _ + 1, [] => []
  | k + 1, v :: vs =>
      if v.status = UStatus.pending then
        { v with status := UStatus.uploading } :: markFirstPending k vs
      else
        v :: markFirstPending (k + 1) vs

/-- `processQueue`: computes `canUpload = min(MAX_PARALLEL_UPLOADS -
uploadingCount, pendingVideos.length)` and starts that many pending
items.  (In JS the subtraction can go negative, making the loop run zero
times; truncated `Nat` subtraction yields the same zero.) -/
def processQueue (vs : List QItem) : List QItem :=
  let pendingVideos := vs.filter (fun v => v.status = UStatus.pending)
  let uploadingCount := countUploading vs
  let canUpload := min (MAX_PARALLEL_UPLOADS - uploadingCount)
    pendingVideos.length
  markFirstPending canUpload vs

/-- Reachable states of the `videos` React state of `UploadDashboard`.
`mount` covers the three ways the list is (re)initialised — the empty
initial state, the load of a queue holding only finished items, and the
post-resume list — none of which contains an `'uploading'` entry;
the remaining constructors are the source's `setVideos` updates. -/
inductive Reach : List QItem → Prop where
  | mount (vs : List QItem)
      (h : ∀ v ∈ vs, v.status ≠ UStatus.uploading) : Reach vs
  | addFiles (vs newItems : List QItem) (h : Reach vs)
      (hnew : ∀ v ∈ newItems,
        v.status = UStatus.pending ∨ v.status = UStatus.error) :
      Reach (vs ++ newItems)
  | process (vs : List QItem) (h : Reach vs) : Reach (processQueue vs)
  | progressUpdate (vs : List QItem) (h : Reach vs) (id : String) (p : Nat) :
      Reach (vs.map (fun v =>
        if v.id = id then { v with progress := p } else v))
  | finishSuccess (vs : List QItem) (h : Reach vs) (id : String) :
      Reach (vs.map (fun v =>
        if v.id = id then
          { v with status := UStatus.success, progress := 100 } else v))
  | finishFailure (vs : List QItem) (h : Reach vs) (id : String)
      (msg : String) :
      Reach (vs.map (fun v =>
        if v.id = id then
          { v with status := UStatus.error, error := some msg } else v))
  | removeVideo (vs : List QItem) (h : Reach vs) (id : String) :
      Reach (vs.filter (fun v => ¬ v.id = id))
  | clearDone (vs : List QItem) (h : Reach vs) :
      Reach (vs.filter (fun v =>
        v.status = UStatus.pending ∨ v.status = UStatus.uploading))

theorem countUploading_nil : countUploading [] = 0 := rfl

theorem countUploading_cons (v : QItem) (vs : List QItem) :
    countUploading (v :: vs) =
      (if v.status = UStatus.uploading then 1 else 0) + countUploading vs := by
  by_cases h : v.status = UStatus.uploading <;>
    simp [countUploading, List.filter_cons, h, Nat.add_comm]

theorem countUploading_append (a b : List QItem) :
    countUploading (a ++ b) = countUploading a + countUploading b := by
  simp [countUploading, List.filter_append]

theorem countUploading_eq_zero (vs : List QItem)
    (h : ∀ v ∈ vs, v.status ≠ UStatus.uploading) : countUploading vs = 0 := by
  induction vs with
  | nil => rfl
  | cons v tl ih =>
      rw [countUploading_cons, if_neg (h v (List.mem_cons_self v tl)),
        Nat.zero_add]
      exact ih (fun x hx => h x (List.mem_cons_of_mem v hx))

theorem countUploading_map_le (vs : List QItem) (f : QItem → QItem)
    (hf : ∀ v, (f v).status = UStatus.uploading → v.status = UStatus.uploading) :
    countUploading (vs.map f) ≤ countUploading vs := by
  induction vs with
  | nil => exact Nat.le_refl 0
  | cons v tl ih =>
      rw [List.map_cons, countUploading_cons, countUploading_cons]
      by_cases h : (f v).status = UStatus.uploading
      · rw [if_pos h, if_pos (hf v h)]
        exact Nat.add_le_add_left ih 1
      · rw [if_neg h]
        have := ih
        by_cases h2 : v.status = UStatus.uploading <;> simp [h2] <;> omega

theorem countUploading_filter_le (vs : List QItem) (p : QItem → Bool) :
    countUploading (vs.filter p) ≤ countUploading vs := by
  induction vs with
  | nil => exact Nat.le_refl 0
  | cons v tl ih =>
      rw [List.filter_cons]
      by_cases h : p v
      · rw [if_pos h, countUploading_cons, countUploading_cons]
        exact Nat.add_le_add_left ih _
      · rw [if_neg h, countUploading_cons]
        exact ih.trans (Nat.le_add_left _ _)

theorem countUploading_markFirstPending (k : Nat) (vs : List QItem) :
    countUploading (markFirstPending k vs) ≤ countUploading vs + k := by
  induction vs generalizing k with
  | nil =>
      cases k <;> simp [markFirstPending, countUploading_nil]
  | cons v tl ih =>
      cases k with
      | zero => simp [markFirstPending]
      | succ k =>
          by_cases h : v.status = UStatus.pending
          · rw [markFirstPending, if_pos h, countUploading_cons,
              countUploading_cons]
            have hv : v.status ≠ UStatus.uploading := by
              rw [h]; intro hc; cases hc
            rw [if_neg hv,
              if_pos (show ({ v with status := UStatus.uploading } :
                QItem).status = UStatus.uploading from rfl)]
            have := ih k
            omega
          · rw [markFirstPending, if_neg h, countUploading_cons,
              countUploading_cons]
            have := ih (k + 1)
            omega

theorem markFirstPending_zero (vs : List QItem) :
    markFirstPending 0 vs = vs := by
  cases vs <;> rfl

/-- C1. The queue is processed strictly sequentially: the maximum is
1, every reachable state of the dashboard's queue has at most one
`'uploading'` item, and `processQueue` is a no-op (starts nothing)
whenever an item is already `'uploading'`. -/
theorem processQueue_sequential :
    MAX_PARALLEL_UPLOADS = 1 ∧
    (∀ vs : List QItem, Reach vs →
      countUploading vs ≤ MAX_PARALLEL_UPLOADS) ∧
    (∀ vs : List QItem, MAX_PARALLEL_UPLOADS ≤ countUploading vs →
      processQueue vs = vs) := by
  have hnoop : ∀ vs : List QItem, MAX_PARALLEL_UPLOADS ≤ countUploading vs →
      processQueue vs = vs := by
    intro vs h
    have h0 : MAX_PARALLEL_UPLOADS - countUploading vs = 0 :=
      Nat.sub_eq_zero_of_le h
    simp only [processQueue]
    rw [h0, Nat.zero_min, markFirstPending_zero]
  refine ⟨rfl, ?_, hnoop⟩
  intro vs h
  induction h with
  | mount vs h =>
      rw [countUploading_eq_zero vs h]
      exact Nat.zero_le _
  | addFiles vs newItems h hnew ih =>
      rw [countUploading_append]
      have : countUploading newItems = 0 :=
        countUploading_eq_zero newItems (fun v hv => by
          rcases hnew v hv with h1 | h1 <;> rw [h1] <;> intro hc <;> cases hc)
      omega
  | process vs h ih =>
      have hmark := countUploading_markFirstPending
        (min (MAX_PARALLEL_UPLOADS - countUploading vs)
          ((vs.filter (fun v => v.status = UStatus.pending)).length)) vs
      have hmin : min (MAX_PARALLEL_UPLOADS - countUploading vs)
          ((vs.filter (fun v => v.status = UStatus.pending)).length) ≤
          MAX_PARALLEL_UPLOADS - countUploading vs := Nat.min_le_left _ _
      show countUploading (processQueue vs) ≤ MAX_PARALLEL_UPLOADS
      simp only [processQueue]
      unfold MAX_PARALLEL_UPLOADS at hmark hmin ih ⊢
      omega
  | progressUpdate vs h id p ih =>
      refine (countUploading_map_le vs _ ?_).trans ih
      intro v hv
      by_cases hid : v.id = id
      · simpa [hid] using hv
      · simpa [hid] using hv
  | finishSuccess vs h id ih =>
      refine (countUploading_map_le vs _ ?_).trans ih
      intro v hv
      by_cases hid : v.id = id
      · rw [if_pos hid] at hv; cases hv
      · simpa [hid] using hv
  | finishFailure vs h id msg ih =>
      refine (countUploading_map_le vs _ ?_).trans ih
      intro v hv
      by_cases hid : v.id = id
      · rw [if_pos hid] at hv; cases hv
      · simpa [hid] using hv
  | removeVideo vs h id ih =>
      exact (countUploading_filter_le vs _).trans ih
  | clearDone vs h ih =>
      exact (countUploading_filter_le vs _).trans ih

/-- Witness for C1: a freshly mounted one-item queue satisfies the
invariant, and `processQueue` is a no-op on a queue already holding one
`'uploading'` item. -/
theorem processQueue_sequential_witness :
    (∀ v ∈ ([⟨"a", "b1", "f", UStatus.pending, 0, none, 1⟩] : List QItem),
      v.status ≠ UStatus.uploading) ∧
    countUploading [⟨"a", "b1", "f", UStatus.pending, 0, none, 1⟩] ≤
      MAX_PARALLEL_UPLOADS ∧
    MAX_PARALLEL_UPLOADS ≤
      countUploading
        [⟨"a", "b1", "f", UStatus.uploading, 40, none, 1⟩,
         ⟨"b", "b1", "g", UStatus.pending, 0, none, 2⟩] ∧
    processQueue
        [⟨"a", "b1", "f", UStatus.uploading, 40, none, 1⟩,
         ⟨"b", "b1", "g", UStatus.pending, 0, none, 2⟩] =
      [⟨"a", "b1", "f", UStatus.uploading, 40, none, 1⟩,
       ⟨"b", "b1", "g", UStatus.pending, 0, none, 2⟩] :=
  ⟨by decide,
   processQueue_sequential.2.1 _
     (Reach.mount [⟨"a", "b1", "f", UStatus.pending, 0, none, 1⟩] (by decide)),
   by decide,
   processQueue_sequential.2.2
     [⟨"a", "b1", "f", UStatus.uploading, 40, none, 1⟩,
      ⟨"b", "b1", "g", UStatus.pending, 0, none, 2⟩] (by decide)⟩

/-! ## BooksDashboard / BookStructure polling (C7) -/

/-- A book row as displayed by `BooksDashboard`. -/
structure Book where
  id : String
  title : String
  author : String
  status : String
  video_count : Nat
deriving DecidableEq, Repr

/-- Statuses treated as active processing by the polling effect. -/
def activeProcessingStatuses : List String :=
  ["PROCESSANDO", "ANALISANDO_CONTEUDO", "GERANDO_SUMARIO", "GERANDO_CONTEUDO"]

/-- Statuses treated as structure-ready by the polling effect. -/
def structureReadyStatuses : List String :=
  ["ESTRUTURA_GERADA", "DISCOVERY_COMPLETE"]

def hasActiveProcessing (books : List Book) : Bool :=
  books.any (fun b => activeProcessingStatuses.contains b.status)

def hasStructureReady (books : List Book) : Bool :=
  books.any (fun b => structureReadyStatuses.contains b.status)

/-- The polling interval (in ms) chosen by the `BooksDashboard` effect:
2 s during active processing, 5 s when a structure is ready, 10 s
otherwise. -/
def booksPollingInterval (books : List Book) : Nat :=
  if hasActiveProcessing books then 2000
  else if hasStructureReady books then 5000
  else 10000

/-- An image asset of a section (`SectionAsset`). -/
structure SectionAsset where
  id : String
  placeholder : List Char
  caption : Option String
  storage_path : String
deriving DecidableEq, Repr

/-- A section of a chapter.  The scalar fields not touched by any
modelled operation (`video_id`, the time range, `video_filename`) are
omitted; every operation below carries the remaining fields through a
`{ ...sec }` spread exactly as the source does. -/
structure Section where
  id : String
  chapter_id : String
  title : String
  order : Nat
  content_markdown : Option (List Char)
  status : String
  assets : List SectionAsset
deriving DecidableEq, Repr

/-- A chapter of a book. -/
structure Chapter where
  id : String
  book_id : String
  title : String
  order : Nat
  is_bibliography : Bool
  sections : List Section
deriving DecidableEq, Repr

/-- `BookStructure`'s check for a section still generating. -/
def hasProcessingSections (chapters : List Chapter) : Bool :=
  chapters.any (fun ch => ch.sections.any (fun sec => sec.status = "PROCESSANDO"))

/-- Whether the `BookStructure` effect installs the 2-second poll:
only outside edit mode, and only while a section or the book itself is
`PROCESSANDO`. -/
def structurePolls (chapters : List Chapter) (bookStatus : String)
    (isEditMode : Bool) : Bool :=
  !isEditMode && (hasProcessingSections chapters || bookStatus = "PROCESSANDO")

/-- C7. Polling is a pure function of the displayed statuses:
`BooksDashboard` refreshes every 2 s exactly when some book is in the
active-processing set, every 5 s exactly when none is but some book is
structure-ready, and every 10 s otherwise; `BookStructure` polls (at
2 s) iff it is not in edit mode and either some section or the book is
`PROCESSANDO`. -/
theorem pollingIntervals_spec :
    (∀ books : List Book,
      (booksPollingInterval books = 2000 ↔
        ∃ b ∈ books, b.status ∈ activeProcessingStatuses) ∧
      (booksPollingInterval books = 5000 ↔
        ((¬ ∃ b ∈ books, b.status ∈ activeProcessingStatuses) ∧
          ∃ b ∈ books, b.status ∈ structureReadyStatuses)) ∧
      (booksPollingInterval books = 10000 ↔
        ((¬ ∃ b ∈ books, b.status ∈ activeProcessingStatuses) ∧
          ¬ ∃ b ∈ books, b.status ∈ structureReadyStatuses))) ∧
    (∀ (chapters : List Chapter) (bookStatus : String) (isEditMode : Bool),
      structurePolls chapters bookStatus isEditMode = true ↔
        (isEditMode = false ∧
          ((∃ ch ∈ chapters, ∃ sec ∈ ch.sections, sec.status = "PROCESSANDO") ∨
            bookStatus = "PROCESSANDO"))) := by
  constructor
  · intro books
    have hA : hasActiveProcessing books = true ↔
        ∃ b ∈ books, b.status ∈ activeProcessingStatuses := by
      simp [hasActiveProcessing, List.any_eq_true]
    have hS : hasStructureReady books = true ↔
        ∃ b ∈ books, b.status ∈ structureReadyStatuses := by
      simp [hasStructureReady, List.any_eq_true]
    by_cases ha : hasActiveProcessing books = true
    · refine ⟨?_, ?_, ?_⟩ <;>
        simp [booksPollingInterval, ha, hA.mp ha, ← hA]
    · by_cases hs : hasStructureReady books = true
      · refine ⟨?_, ?_, ?_⟩ <;>
          simp [booksPollingInterval, ha, hs, ← hA, ← hS]
      · refine ⟨?_, ?_, ?_⟩ <;>
          simp [booksPollingInterval, ha, hs, ← hA, ← hS]
  · intro chapters bookStatus isEditMode
    simp [structurePolls, hasProcessingSections, List.any_eq_true,
      Bool.and_eq_true, Bool.not_eq_true']

/-- Witness for C7: a single actively-processing book polls at 2 s, and
a structure with a processing section polls outside edit mode. -/
theorem pollingIntervals_spec_witness :
    booksPollingInterval [⟨"b1", "T", "A", "PROCESSANDO", 1⟩] = 2000 ∧
    structurePolls
        [⟨"c1", "b1", "Cap", 1, false,
          [⟨"s1", "c1", "Sec", 1, none, "PROCESSANDO", []⟩]⟩] "CONCLUIDO"
        false = true :=
  ⟨(pollingIntervals_spec.1 [⟨"b1", "T", "A", "PROCESSANDO", 1⟩]).1.mpr
      ⟨⟨"b1", "T", "A", "PROCESSANDO", 1⟩, by decide, by decide⟩,
   (pollingIntervals_spec.2
      [⟨"c1", "b1", "Cap", 1, false,
        [⟨"s1", "c1", "Sec", 1, none, "PROCESSANDO", []⟩]⟩] "CONCLUIDO"
      false).mpr
     ⟨rfl, Or.inl ⟨⟨"c1", "b1", "Cap", 1, false,
        [⟨"s1", "c1", "Sec", 1, none, "PROCESSANDO", []⟩]⟩, by decide,
        ⟨"s1", "c1", "Sec", 1, none, "PROCESSANDO", []⟩, by decide, rfl⟩⟩⟩

/-! ## Book lifecycle (C2) -/

/-- Modelled from the spec: the backend book-lifecycle status.  The
FastAPI/Celery backend that owns the `Book.status` column is not part
of this repository snapshot (only the React frontend is under version
control here); the spec's glossary fixes the value set
`PENDING → PROCESSING → STRUCTURE_GENERATED → CONTENT_GENERATED →
COMPLETED/ERROR`. -/
inductive BookStatus where
  | PENDING
  | PROCESSING
  | STRUCTURE_GENERATED
  | CONTENT_GENERATED
  | COMPLETED
  | ERROR
deriving DecidableEq, Repr

/-- Modelled from the spec: the lifecycle transitions of a book's
status, as the spec's glossary arrow chain states them. -/
inductive bookStep : BookStatus → BookStatus → Prop where
  | start : bookStep BookStatus.PENDING BookStatus.PROCESSING
  | structure_done :
      bookStep BookStatus.PROCESSING BookStatus.STRUCTURE_GENERATED
  | content_done :
      bookStep BookStatus.STRUCTURE_GENERATED BookStatus.CONTENT_GENERATED
  | complete : bookStep BookStatus.CONTENT_GENERATED BookStatus.COMPLETED
  | fail : bookStep BookStatus.CONTENT_GENERATED BookStatus.ERROR

/-- Position of a status along the lifecycle chain; the two terminal
statuses share the last position. -/
def bookRank : BookStatus → Nat
  | BookStatus.PENDING => 0
  | BookStatus.PROCESSING => 1
  | BookStatus.STRUCTURE_GENERATED => 2
  | BookStatus.CONTENT_GENERATED => 3
  | BookStatus.COMPLETED => 4
  | BookStatus.ERROR => 4

/-- C2. Every book status is one of the six lifecycle values, and
along the lifecycle the status only advances in the stated order: each
transition moves exactly one position forward along
PENDING, PROCESSING, STRUCTURE_GENERATED, CONTENT_GENERATED,
COMPLETED/ERROR, and the two final statuses are terminal. -/
theorem bookLifecycle_spec :
    (∀ s : BookStatus, s ∈
      [BookStatus.PENDING, BookStatus.PROCESSING,
       BookStatus.STRUCTURE_GENERATED, BookStatus.CONTENT_GENERATED,
       BookStatus.COMPLETED, BookStatus.ERROR]) ∧
    (∀ s t : BookStatus, bookStep s t → bookRank t = bookRank s + 1) ∧
    (∀ t : BookStatus, ¬ bookStep BookStatus.COMPLETED t) ∧
    (∀ t : BookStatus, ¬ bookStep BookStatus.ERROR t) := by
  refine ⟨?_, ?_, ?_, ?_⟩
  · intro s; cases s <;> simp
  · intro s t h; cases h <;> rfl
  · intro t h; cases h
  · intro t h; cases h

/-- Witness for C2: the first lifecycle transition advances the rank by
one. -/
theorem bookLifecycle_spec_witness :
    bookRank BookStatus.PROCESSING = bookRank BookStatus.PENDING + 1 :=
  bookLifecycle_spec.2.1 BookStatus.PENDING BookStatus.PROCESSING
    bookStep.start

/-! ## BookStructure: asset placeholders and rendering (C4) -/

/-- Literal matcher: `matchLit p s = some r` exactly when `s = p ++ r`. -/
def matchLit : List Char → List Char → Option (List Char)
  | [], s => some s
  | _ :: _, [] => none
  | p :: ps, c :: cs => if p = c then matchLit ps cs else none

/-- The fixed head of an image placeholder token. -/
def imageTokenHead : List Char := "[IMAGE_".toList

/-- The regex `\[IMAGE_\d+\]` anchored at the head of the input: the
literal `[IMAGE_`, a nonempty digit run, then `]`.  (With a greedy
`\d+`, backtracking to a shorter run can never help, because the
character after a shorter run is another digit, not `]`; so the maximal
run followed by `]` is exactly the regex's acceptance condition.)
Returns the matched token and the rest of the input. -/
def matchToken (s : List Char) : Option (List Char × List Char) :=
  match matchLit imageTokenHead s with
  | none => none
  | some s1 =>
      match s1.takeWhile Char.isDigit, s1.dropWhile Char.isDigit with
      | [], _ => none
      | d :: ds, ']' :: r =>
          some (imageTokenHead ++ (d :: ds) ++ [']'], r)
      | _ :: _, _ => none

theorem matchLit_eq_some (p : List Char) :
    ∀ s r, matchLit p s = some r → s = p ++ r := by
  induction p with
  | nil =>
      intro s r h
      simp only [matchLit, Option.some_inj] at h
      simp [h]
  | cons a ps ih =>
      intro s r h
      match s with
      | [] => cases h
      | c :: cs =>
          by_cases hac : a = c
          · subst hac
            rw [matchLit, if_pos rfl] at h
            simpa using ih cs r h
          · rw [matchLit, if_neg hac] at h
            cases h

theorem matchLit_append (p r : List Char) : matchLit p (p ++ r) = some r := by
  induction p with
  | nil => rfl
  | cons a ps ih => simp [matchLit, ih]

theorem all_takeWhile (p : Char → Bool) (l : List Char) :
    (l.takeWhile p).all p = true := by
  induction l with
  | nil => rfl
  | cons c cs ih =>
      by_cases h : p c <;> simp [List.takeWhile_cons, h, ih]

theorem takeWhile_all_append (p : Char → Bool) (ds : List Char) (c : Char)
    (u : List Char) (hds : ds.all p = true) (hc : p c = false) :
    (ds ++ c :: u).takeWhile p = ds ∧ (ds ++ c :: u).dropWhile p = c :: u := by
  induction ds with
  | nil => simp [List.takeWhile_cons, List.dropWhile_cons, hc]
  | cons d ds ih =>
      simp only [List.all_cons, Bool.and_eq_true] at hds
      have h2 := ih hds.2
      simp [List.takeWhile_cons, List.dropWhile_cons, hds.1, h2.1, h2.2]

/-- Shape of a successful token match. -/
theorem matchToken_some_shape (s tok r : List Char)
    (h : matchToken s = some (tok, r)) :
    ∃ ds, ds ≠ [] ∧ ds.all Char.isDigit = true ∧
      tok = imageTokenHead ++ ds ++ [']'] ∧ s = tok ++ r := by
  unfold matchToken at h
  cases hL : matchLit imageTokenHead s with
  | none => rw [hL] at h; cases h
  | some s1 =>
      rw [hL] at h
      have hs : s = imageTokenHead ++ s1 := matchLit_eq_some _ _ _ hL
      dsimp only at h
      split at h
      · cases h
      · rename_i d ds r2 hT hD
        injection h with h2
        injection h2 with htok hr
        refine ⟨d :: ds, by simp, ?_, htok.symm, ?_⟩
        · rw [← hT]; exact all_takeWhile _ _
        · rw [hs, ← htok, ← hr]
          have hsplit : s1 = (d :: ds) ++ ']' :: r2 := by
            rw [← hT, ← hD]
            exact (List.takeWhile_append_dropWhile Char.isDigit s1).symm
          rw [hsplit]
          simp
      · cases h

/-- A successful match consumes at least the token head. -/
theorem matchToken_some_length (s tok r : List Char)
    (h : matchToken s = some (tok, r)) : r.length < s.length := by
  rcases matchToken_some_shape s tok r h with ⟨ds, hne, _, htok, hs⟩
  rw [hs, htok]
  simp [imageTokenHead]
  omega

/-- A token match at the head is insensitive to what follows it. -/
theorem matchToken_token_append (s tok r u : List Char)
    (h : matchToken s = some (tok, r)) :
    matchToken (tok ++ u) = some (tok, u) := by
  rcases matchToken_some_shape s tok r h with ⟨ds, hne, hall, htok, _⟩
  subst htok
  unfold matchToken
  have h1 : imageTokenHead ++ ds ++ [']'] ++ u =
      imageTokenHead ++ (ds ++ ']' :: u) := by simp
  rw [h1, matchLit_append]
  have h2 := takeWhile_all_append Char.isDigit ds ']' u hall (by decide)
  dsimp only
  rw [h2.1, h2.2]
  cases ds with
  | nil => exact absurd rfl hne
  | cons d ds => rfl

/-- The scan of `content.split(/(\[IMAGE_\d+\])/g)`: a list of parts
tagged `true` for the captured delimiters (the image tokens) and
`false` for the text between them, empty gaps included, exactly as the
JS `split` with a capture group produces them.  Every step of the scan
consumes at least one character, so `s.length` steps always suffice;
the fuel argument only makes the recursion structural, and the
fuel-exhausted arm is never reached from `splitTokens`. -/
def splitGoF : Nat → List Char → List Char → List (Bool × List Char)
  | _, acc, [] => [(false, acc.reverse)]
  | 0, acc, c :: cs => [(false, acc.reverse ++ c :: cs)]
  | fuel + 1, acc, c :: cs =>
      match matchToken (c :: cs) with
      | some (tok, rest) =>
          (false, acc.reverse) :: (true, tok) :: splitGoF fuel [] rest
      | none => splitGoF fuel (c :: acc) cs

def splitTokens (s : List Char) : List (Bool × List Char) :=
  splitGoF s.length [] s

/-- Rendered pieces produced by `renderContent`: plain text, or an image
block showing the asset found by placeholder equality (`none` renders
the "não encontrada" error box). -/
inductive RPart where
  | text (s : List Char)
  | image (resolved : Option SectionAsset) (tok : List Char)
deriving DecidableEq, Repr

/-- The unanchored `part.match(/\[IMAGE_(\d+)\]/)` test: does a token
occur anywhere in the part? -/
def containsToken (s : List Char) : Bool :=
  s.tails.any (fun t => (matchToken t).isSome)

/-- Whether a part is exactly one image token. -/
def isImageToken (s : List Char) : Bool :=
  match matchToken s with
  | some (tok, rest) => decide (tok = s) && decide (rest = ([] : List Char))
  | none => false

/-- One mapped part of `renderContent`: a part that matches the image
regex is rendered as the asset found by `assets.find(a => a.placeholder
=== part)`; any other part as text. -/
def renderPart (assets : List SectionAsset) (part : List Char) : RPart :=
  if containsToken part then
    RPart.image (assets.find? (fun a => a.placeholder = part)) part
  else RPart.text part

/-- `renderContent` over a non-null content string. -/
def renderContent (assets : List SectionAsset) (content : List Char) :
    List RPart :=
  (splitTokens content).map (fun p => renderPart assets p.2)

/-- The placeholder block inserted by `handleUploadAsset`:
`"\n\n" + placeholder + "\n\n"` spliced at the recorded cursor position
when there is one, appended at the end otherwise. -/
def insertPlaceholder (content : List Char) (cursor : Option Nat)
    (ph : List Char) : List Char :=
  match cursor with
  | some n => content.take n ++ ('\n' :: '\n' :: (ph ++ ['\n', '\n'])) ++
      content.drop n
  | none => content ++ ('\n' :: '\n' :: (ph ++ ['\n', '\n']))

/-- The section update of `handleUploadAsset`'s success path. -/
def updateSectionWithAsset (sec : Section) (asset : SectionAsset)
    (cursor : Option Nat) : Section :=
  { sec with
    assets := sec.assets ++ [asset]
    content_markdown :=
      some (insertPlaceholder (sec.content_markdown.getD []) cursor
        asset.placeholder) }

/-- `handleUploadAsset`'s `setChapters` update after the server accepted
the upload: every section whose id is the selected one receives the new
asset and the placeholder insertion; everything else is untouched. -/
def handleUploadAsset (chapters : List Chapter) (selId : String)
    (asset : SectionAsset) (cursor : Option Nat) : List Chapter :=
  chapters.map (fun ch =>
    { ch with
      sections := ch.sections.map (fun sec =>
        if sec.id = selId then updateSectionWithAsset sec asset cursor
        else sec) })

theorem matchToken_nil : matchToken [] = none := by decide

theorem token_isImageToken (s tok rest : List Char)
    (h : matchToken s = some (tok, rest)) : isImageToken tok = true := by
  have h2 := matchToken_token_append s tok rest [] h
  rw [List.append_nil] at h2
  unfold isImageToken
  rw [h2]
  simp

theorem isImageToken_containsToken (s : List Char)
    (h : isImageToken s = true) : containsToken s = true := by
  unfold isImageToken at h
  cases hmt : matchToken s with
  | none => rw [hmt] at h; cases h
  | some pr =>
      unfold containsToken
      refine List.any_eq_true.mpr ⟨s, (List.mem_tails _ _).mpr (List.suffix_refl s), ?_⟩
      rw [hmt]
      rfl

theorem containsToken_eq_false (l : List Char)
    (h : ∀ t ∈ l.tails, matchToken t = none) : containsToken l = false := by
  unfold containsToken
  cases hA : l.tails.any (fun t => (matchToken t).isSome) with
  | false => rfl
  | true =>
      exfalso
      rcases List.any_eq_true.mp hA with ⟨t, ht, hsome⟩
      rw [h t ht] at hsome
      simp at hsome

/-- No token occurs inside a stretch of text the scan has passed over:
each of its characters was a position where the anchored match failed
against the whole remaining input. -/
theorem containsToken_false_of_inv (acc s : List Char)
    (Hacc : ∀ a b : List Char, acc.reverse = a ++ b → b ≠ [] →
      matchToken (b ++ s) = none) : containsToken acc.reverse = false := by
  apply containsToken_eq_false
  intro t ht
  rcases (List.mem_tails _ _).mp ht with ⟨a, ha⟩
  cases htn : t with
  | nil => exact matchToken_nil
  | cons x xs =>
      rw [← htn]
      cases hmt : matchToken t with
      | none => rfl
      | some pr =>
          exfalso
          obtain ⟨tok, r⟩ := pr
          rcases matchToken_some_shape t tok r hmt with ⟨_, _, _, _, hteq⟩
          have hfail := Hacc a t ha.symm (by rw [htn]; simp)
          have hsucc := matchToken_token_append t tok r (r ++ s) hmt
          rw [hteq, List.append_assoc] at hfail
          rw [hfail] at hsucc
          cases hsucc

/-- The scan invariant survives stepping over one unmatched character. -/
theorem inv_step (acc : List Char) (c : Char) (cs : List Char)
    (Hacc : ∀ a b : List Char, acc.reverse = a ++ b → b ≠ [] →
      matchToken (b ++ (c :: cs)) = none)
    (hm : matchToken (c :: cs) = none) :
    ∀ a b : List Char, (c :: acc).reverse = a ++ b → b ≠ [] →
      matchToken (b ++ cs) = none := by
  intro a b hab hbne
  rw [List.reverse_cons] at hab
  rcases List.eq_nil_or_concat b with hb | ⟨b2, x, hb⟩
  · exact absurd hb hbne
  · rw [List.concat_eq_append] at hb
    subst hb
    have hsplit : acc.reverse ++ [c] = (a ++ b2) ++ [x] := by
      rw [hab, List.append_assoc]
    have hinj := List.append_inj' hsplit rfl
    have hx : x = c := by
      have := hinj.2
      injection this with h1
      exact h1.symm
    subst hx
    rcases List.eq_nil_or_concat b2 with hb2 | ⟨b3, y, hb3⟩
    · subst hb2
      simpa using hm
    · have hb2ne : b2 ≠ [] := by rw [hb3]; simp
      have := Hacc a b2 hinj.1 hb2ne
      simpa [List.append_assoc] using this

/-- Correctness of the split scan: the parts concatenate back to the
input, every delimiter part is exactly one image token, and no text
part contains a token anywhere. -/
theorem splitGoF_spec (fuel : Nat) : ∀ (s acc : List Char),
    s.length ≤ fuel →
    (∀ a b : List Char, acc.reverse = a ++ b → b ≠ [] →
      matchToken (b ++ s) = none) →
    ((splitGoF fuel acc s).map Prod.snd).flatten = acc.reverse ++ s ∧
    (∀ p ∈ splitGoF fuel acc s, p.1 = true → isImageToken p.2 = true) ∧
    (∀ p ∈ splitGoF fuel acc s, p.1 = false → containsToken p.2 = false) := by
  induction fuel with
  | zero =>
      intro s acc hlen Hacc
      have hs : s = [] := List.eq_nil_of_length_eq_zero (Nat.le_zero.mp hlen)
      subst hs
      refine ⟨by simp [splitGoF], ?_, ?_⟩
      · intro p hp ht
        simp only [splitGoF, List.mem_singleton] at hp
        rw [hp] at ht
        cases ht
      · intro p hp _
        simp only [splitGoF, List.mem_singleton] at hp
        rw [hp]
        exact containsToken_false_of_inv acc [] Hacc
  | succ fuel ih =>
      intro s acc hlen Hacc
      cases s with
      | nil =>
          refine ⟨by simp [splitGoF], ?_, ?_⟩
          · intro p hp ht
            simp only [splitGoF, List.mem_singleton] at hp
            rw [hp] at ht
            cases ht
          · intro p hp _
            simp only [splitGoF, List.mem_singleton] at hp
            rw [hp]
            exact containsToken_false_of_inv acc [] Hacc
      | cons c cs =>
          cases hm : matchToken (c :: cs) with
          | some pr =>
              obtain ⟨tok, rest⟩ := pr
              have hred : splitGoF (fuel + 1) acc (c :: cs) =
                  (false, acc.reverse) :: (true, tok) ::
                    splitGoF fuel [] rest := by
                simp only [splitGoF]
                rw [hm]
              rcases matchToken_some_shape _ _ _ hm with
                ⟨ds, hne, hall, htok, hseq⟩
              have hlrest : rest.length ≤ fuel := by
                have := matchToken_some_length _ _ _ hm
                simp only [List.length_cons] at this hlen
                omega
              have IH := ih rest []
                hlrest
                (by
                  intro a b hab hbne
                  exfalso
                  apply hbne
                  have h0 : ([] : List Char) = a ++ b := by simpa using hab
                  exact (List.append_eq_nil.mp h0.symm).2)
              rw [hred]
              refine ⟨?_, ?_, ?_⟩
              · simp only [List.map_cons, List.flatten_cons]
                rw [IH.1]
                rw [hseq]
                simp
              · intro p hp ht
                simp only [List.mem_cons] at hp
                rcases hp with hp | hp | hp
                · rw [hp] at ht; cases ht
                · rw [hp]
                  exact token_isImageToken _ _ _ hm
                · exact IH.2.1 p hp ht
              · intro p hp hf
                simp only [List.mem_cons] at hp
                rcases hp with hp | hp | hp
                · rw [hp]
                  exact containsToken_false_of_inv acc (c :: cs) Hacc
                · rw [hp] at hf; cases hf
                · exact IH.2.2 p hp hf
          | none =>
              have hred : splitGoF (fuel + 1) acc (c :: cs) =
                  splitGoF fuel (c :: acc) cs := by
                simp only [splitGoF]
                rw [hm]
              have IH := ih cs (c :: acc)
                (by simp only [List.length_cons] at hlen; omega)
                (inv_step acc c cs Hacc hm)
              rw [hred]
              refine ⟨?_, IH.2.1, IH.2.2⟩
              rw [IH.1]
              simp

theorem splitTokens_spec (content : List Char) :
    ((splitTokens content).map Prod.snd).flatten = content ∧
    (∀ p ∈ splitTokens content, p.1 = true → isImageToken p.2 = true) ∧
    (∀ p ∈ splitTokens content, p.1 = false → containsToken p.2 = false) := by
  have h := splitGoF_spec content.length content [] (Nat.le_refl _)
    (by
      intro a b hab hbne
      exfalso
      apply hbne
      have h0 : ([] : List Char) = a ++ b := by simpa using hab
      exact (List.append_eq_nil.mp h0.symm).2)
  simpa [splitTokens] using h

/-- `renderContent` classifies exactly the delimiter parts as images,
resolving each one against the assets by placeholder equality. -/
theorem renderContent_eq (assets : List SectionAsset) (content : List Char) :
    renderContent assets content =
      (splitTokens content).map (fun p =>
        if p.1 then
          RPart.image (assets.find? (fun a => a.placeholder = p.2)) p.2
        else RPart.text p.2) := by
  unfold renderContent
  apply List.map_congr_left
  intro p hp
  cases hb : p.1 with
  | true =>
      have htok := (splitTokens_spec content).2.1 p hp hb
      have hct := isImageToken_containsToken p.2 htok
      simp [renderPart, hct]
  | false =>
      have hct := (splitTokens_spec content).2.2 p hp hb
      simp [renderPart, hct]

/-- C4. An asset is tied to its section through the placeholder
token: on a successful upload the returned asset is appended to the
selected section's asset list and its placeholder, wrapped in blank
lines, is spliced into `content_markdown` at the recorded cursor
position (appended at the end when none is recorded), every other
section being untouched; and `renderContent` splits the content so that
nothing is lost, treats exactly the `[IMAGE_<digits>]` substrings as
image slots, and resolves each one by placeholder equality against the
section's assets. -/
theorem assetPlaceholder_spec :
    (∀ (sec : Section) (asset : SectionAsset) (cursor : Option Nat),
      (updateSectionWithAsset sec asset cursor).assets =
        sec.assets ++ [asset]) ∧
    (∀ (sec : Section) (asset : SectionAsset) (n : Nat),
      (updateSectionWithAsset sec asset (some n)).content_markdown =
        some ((sec.content_markdown.getD []).take n ++
          ('\n' :: '\n' :: (asset.placeholder ++ ['\n', '\n'])) ++
          (sec.content_markdown.getD []).drop n)) ∧
    (∀ (sec : Section) (asset : SectionAsset),
      (updateSectionWithAsset sec asset none).content_markdown =
        some ((sec.content_markdown.getD []) ++
          ('\n' :: '\n' :: (asset.placeholder ++ ['\n', '\n'])))) ∧
    (∀ (chapters : List Chapter) (selId : String) (asset : SectionAsset)
        (cursor : Option Nat),
      handleUploadAsset chapters selId asset cursor =
        chapters.map (fun ch =>
          { ch with sections := ch.sections.map (fun sec =>
              if sec.id = selId then updateSectionWithAsset sec asset cursor
              else sec) })) ∧
    (∀ (assets : List SectionAsset) (content : List Char),
      ((splitTokens content).map Prod.snd).flatten = content ∧
      renderContent assets content =
        (splitTokens content).map (fun p =>
          if p.1 then
            RPart.image (assets.find? (fun a => a.placeholder = p.2)) p.2
          else RPart.text p.2) ∧
      (∀ p ∈ splitTokens content, p.1 = true → isImageToken p.2 = true) ∧
      (∀ p ∈ splitTokens content, p.1 = false → containsToken p.2 = false)) :=
  ⟨fun _ _ _ => rfl,
   fun _ _ _ => rfl,
   fun _ _ => rfl,
   fun _ _ _ _ => rfl,
   fun assets content =>
     ⟨(splitTokens_spec content).1,
      renderContent_eq assets content,
      (splitTokens_spec content).2.1,
      (splitTokens_spec content).2.2⟩⟩

/-- Witness for C4: in the concrete content `a[IMAGE_1]`, the scan
yields the token part, and the theorem certifies it is exactly an image
token. -/
theorem assetPlaceholder_spec_witness :
    ((true, ['[', 'I', 'M', 'A', 'G', 'E', '_', '1', ']']) ∈
        splitTokens ['a', '[', 'I', 'M', 'A', 'G', 'E', '_', '1', ']'] ∧
      ((true, ['[', 'I', 'M', 'A', 'G', 'E', '_', '1', ']']) :
        Bool × List Char).1 = true) ∧
    isImageToken ((true,
      ['[', 'I', 'M', 'A', 'G', 'E', '_', '1', ']']) : Bool × List Char).2 =
      true :=
  ⟨⟨by decide, rfl⟩,
   ((assetPlaceholder_spec.2.2.2.2 []
       ['a', '[', 'I', 'M', 'A', 'G', 'E', '_', '1', ']']).2.2.1
     (true, ['[', 'I', 'M', 'A', 'G', 'E', '_', '1', ']']) (by decide) rfl)⟩

/-! ## BookStructure: asset deletion (C5) -/

/-- JS regex `\s` over the ASCII range (space, tab, newline, carriage
return, vertical tab, form feed); the modelled contents never use the
non-ASCII whitespace code points `\s` additionally covers. -/
def isJsWS (c : Char) : Bool :=
  c = ' ' ∨ c = '\t' ∨ c = '\n' ∨ c = '\r' ∨ c = '\x0b' ∨ c = '\x0c'

/-- One anchored attempt of `\n*\s*PH\s*\n*` (with `PH` the escaped
placeholder literal): since `\n* \s*` together match exactly an
arbitrary whitespace run, and the placeholder starts with the
non-whitespace `[`, the attempt succeeds exactly when the placeholder
follows the maximal whitespace run; the trailing greedy `\s*\n*` then
swallows the whitespace after it.  Returns the input remaining after
the whole match.  (An empty placeholder never reaches this code: the
caller guards on `deletedPlaceholder` being truthy.) -/
def tryMatchPH (ph s : List Char) : Option (List Char) :=
  match ph with
  | [] => none
  | _ :: _ =>
      match matchLit ph (s.dropWhile isJsWS) with
      | some r2 => some (r2.dropWhile isJsWS)
      | none => none

/-- The global `content.replace(regex, '\n\n')` scan: each match is
replaced by one blank-line separator and the scan resumes after it.
Each step consumes at least one character, so `s.length` steps always
suffice; the fuel argument only makes the recursion structural. -/
def replacePHF (ph : List Char) : Nat → List Char → List Char
  | _, [] => []
  | 0, c :: cs => c :: cs
  | fuel + 1, c :: cs =>
      match tryMatchPH ph (c :: cs) with
      | some rest => '\n' :: '\n' :: replacePHF ph fuel rest
      | none => c :: replacePHF ph fuel cs

def replacePH (ph s : List Char) : List Char := replacePHF ph s.length s

/-- JS `String.prototype.trim`. -/
def trimJs (s : List Char) : List Char :=
  ((s.dropWhile isJsWS).reverse.dropWhile isJsWS).reverse

/-- `p` occurs as a contiguous substring of `s`. -/
def occursIn (p s : List Char) : Prop := ∃ pre post, s = pre ++ p ++ post

/-- The selected section, found by id across all chapters. -/
def findSelectedSection (chapters : List Chapter) (selId : String) :
    Option Section :=
  (chapters.flatMap (fun ch => ch.sections)).find? (fun sec => sec.id = selId)

/-- The `deletedPlaceholder` lookup of `handleDeleteAsset`: the
placeholder of the asset with the given id in the selected section, or
the empty (falsy) string. -/
def deletedPlaceholderOf (chapters : List Chapter) (selId assetId : String) :
    List Char :=
  match findSelectedSection chapters selId with
  | some sec =>
      match sec.assets.find? (fun a => a.id = assetId) with
      | some a => a.placeholder
      | none => []
  | none => []

/-- `handleDeleteAsset`'s `setChapters` update after the server deleted
the asset: in the selected section the asset is filtered out and, when a
placeholder was found, every match of the placeholder regex in
`content_markdown` is replaced by a blank line and the result trimmed
(null content behaving as the empty string, `|| ''`); every other
section is returned unchanged. -/
def handleDeleteAsset (chapters : List Chapter) (selId assetId : String) :
    List Chapter :=
  let ph := deletedPlaceholderOf chapters selId assetId
  chapters.map (fun ch =>
    { ch with sections := ch.sections.map (fun sec =>
        if sec.id = selId then
          { sec with
            assets := sec.assets.filter (fun a => ¬ a.id = assetId)
            content_markdown :=
              if ph = [] then sec.content_markdown
              else some (trimJs (replacePH ph (sec.content_markdown.getD []))) }
        else sec) })

theorem length_dropWhile_le (p : Char → Bool) (l : List Char) :
    (l.dropWhile p).length ≤ l.length := by
  induction l with
  | nil => exact Nat.le_refl 0
  | cons c cs ih =>
      rw [List.dropWhile_cons]
      by_cases h : p c
      · rw [if_pos h]
        exact ih.trans (Nat.le_succ _)
      · rw [if_neg h]

theorem tryMatchPH_some_length (ph s rest : List Char)
    (h : tryMatchPH ph s = some rest) : rest.length < s.length := by
  cases ph with
  | nil => cases h
  | cons p ps =>
      unfold tryMatchPH at h
      cases hL : matchLit (p :: ps) (s.dropWhile isJsWS) with
      | none => rw [hL] at h; cases h
      | some r2 =>
          rw [hL] at h
          injection h with h1
          have hd := matchLit_eq_some (p :: ps) _ _ hL
          have h2 : (s.dropWhile isJsWS).length ≤ s.length :=
            length_dropWhile_le _ _
          have h3 : r2.length < (s.dropWhile isJsWS).length := by
            rw [hd]
            simp only [List.length_append, List.length_cons]
            omega
          have h4 : rest.length ≤ r2.length := by
            rw [← h1]
            exact length_dropWhile_le _ _
          omega

/-- A non-whitespace block that is a prefix of the replaced string was
already a prefix of the input: the replacement only deletes matched
spans and inserts newlines. -/
theorem replacePHF_prefix_rev (ph : List Char) :
    ∀ (fuel : Nat) (s q : List Char), s.length ≤ fuel → q ≠ [] →
      q.all (fun c => !isJsWS c) = true →
      (∃ r, replacePHF ph fuel s = q ++ r) → ∃ r, s = q ++ r := by
  intro fuel
  induction fuel with
  | zero =>
      intro s q hlen hqne hqws hpre
      have hs : s = [] := List.eq_nil_of_length_eq_zero (Nat.le_zero.mp hlen)
      subst hs
      rcases hpre with ⟨r, hr⟩
      simp only [replacePHF] at hr
      exact absurd (List.append_eq_nil.mp hr.symm).1 hqne
  | succ fuel ih =>
      intro s q hlen hqne hqws hpre
      cases s with
      | nil =>
          rcases hpre with ⟨r, hr⟩
          simp only [replacePHF] at hr
          exact absurd (List.append_eq_nil.mp hr.symm).1 hqne
      | cons c cs =>
          cases q with
          | nil => exact absurd rfl hqne
          | cons qh q2 =>
              simp only [List.all_cons, Bool.and_eq_true,
                Bool.not_eq_true'] at hqws
              cases hm : tryMatchPH ph (c :: cs) with
              | some rest =>
                  rcases hpre with ⟨r, hr⟩
                  simp only [replacePHF] at hr
                  rw [hm] at hr
                  injection hr with h1 _
                  rw [← h1] at hqws
                  cases hqws.1
              | none =>
                  rcases hpre with ⟨r, hr⟩
                  simp only [replacePHF] at hr
                  rw [hm] at hr
                  injection hr with h1 h2
                  subst h1
                  cases hq2 : q2 with
                  | nil => exact ⟨cs, by simp [hq2]⟩
                  | cons e es =>
                      have hq2ne : q2 ≠ [] := by rw [hq2]; simp
                      rcases ih cs q2
                          (by simp only [List.length_cons] at hlen; omega)
                          hq2ne hqws.2 ⟨r, by simpa using h2⟩ with ⟨r2, hr2⟩
                      exact ⟨r2, by rw [hr2]; simp [hq2]⟩

/-- After the global replacement no occurrence of the placeholder
remains: every original occurrence (the placeholder contains no
whitespace, so it always sits after a whitespace run) is consumed by a
match, and the inserted newlines cannot assemble a new one. -/
theorem replacePHF_no_occ (ph : List Char) (hne : ph ≠ [])
    (hnws : ph.all (fun c => !isJsWS c) = true) :
    ∀ (fuel : Nat) (s : List Char), s.length ≤ fuel →
      ¬ occursIn ph (replacePHF ph fuel s) := by
  intro fuel
  induction fuel with
  | zero =>
      intro s hlen hocc
      have hs : s = [] := List.eq_nil_of_length_eq_zero (Nat.le_zero.mp hlen)
      subst hs
      rcases hocc with ⟨pre, post, heq⟩
      simp only [replacePHF] at heq
      have := List.append_eq_nil.mp heq.symm
      exact hne (List.append_eq_nil.mp this.1).2
  | succ fuel ih =>
      intro s hlen hocc
      cases s with
      | nil =>
          rcases hocc with ⟨pre, post, heq⟩
          simp only [replacePHF] at heq
          have := List.append_eq_nil.mp heq.symm
          exact hne (List.append_eq_nil.mp this.1).2
      | cons c cs =>
          obtain ⟨p1, ps, hph⟩ : ∃ p1 ps, ph = p1 :: ps := by
            cases ph with
            | nil => exact absurd rfl hne
            | cons p1 ps => exact ⟨p1, ps, rfl⟩
          have hph1 : isJsWS p1 = false := by
            rw [hph] at hnws
            simp only [List.all_cons, Bool.and_eq_true,
              Bool.not_eq_true'] at hnws
            exact hnws.1
          cases hm : tryMatchPH ph (c :: cs) with
          | some rest =>
              have hrest : rest.length ≤ fuel := by
                have := tryMatchPH_some_length ph _ _ hm
                simp only [List.length_cons] at this hlen
                omega
              rcases hocc with ⟨pre, post, heq⟩
              simp only [replacePHF] at heq
              rw [hm] at heq
              cases pre with
              | nil =>
                  simp only [List.nil_append] at heq
                  rw [hph] at heq
                  injection heq with h1 _
                  rw [← h1] at hph1
                  cases hph1
              | cons x1 pre2 =>
                  injection heq with h1 h2
                  cases pre2 with
                  | nil =>
                      rw [hph] at h2
                      injection h2 with h3 _
                      rw [← h3] at hph1
                      cases hph1
                  | cons x2 pre3 =>
                      injection h2 with h3 h4
                      exact ih rest hrest ⟨pre3, post, h4⟩
          | none =>
              rcases hocc with ⟨pre, post, heq⟩
              simp only [replacePHF] at heq
              rw [hm] at heq
              cases pre with
              | nil =>
                  simp only [List.nil_append] at heq
                  rw [hph] at heq
                  injection heq with h1 h2
                  have hcontra : tryMatchPH ph (c :: cs) ≠ none := by
                    cases hps : ps with
                    | nil =>
                        rw [hph, hps, h1]
                        simp only [tryMatchPH]
                        rw [List.dropWhile_cons, if_neg (by simp [hph1])]
                        rw [matchLit, if_pos rfl, matchLit]
                        simp
                    | cons e es =>
                        have hpsne : ps ≠ [] := by rw [hps]; simp
                        have hnws2 : ps.all (fun c => !isJsWS c) = true := by
                          rw [hph] at hnws
                          simp only [List.all_cons,
                            Bool.and_eq_true] at hnws
                          exact hnws.2
                        rcases replacePHF_prefix_rev ph fuel cs ps
                            (by simp only [List.length_cons] at hlen; omega)
                            hpsne hnws2
                            ⟨post, by rw [hph]; simpa using h2⟩ with ⟨r2, hr2⟩
                        rw [hph, h1]
                        simp only [tryMatchPH]
                        rw [List.dropWhile_cons, if_neg (by simp [hph1])]
                        rw [matchLit, if_pos rfl, hr2, matchLit_append]
                        simp
                  exact hcontra hm
              | cons x1 pre2 =>
                  injection heq with h1 h2
                  exact ih cs
                    (by simp only [List.length_cons] at hlen; omega)
                    ⟨pre2, post, h2⟩

theorem replacePH_no_occ (ph s : List Char) (hne : ph ≠ [])
    (hnws : ph.all (fun c => !isJsWS c) = true) :
    ¬ occursIn ph (replacePH ph s) :=
  replacePHF_no_occ ph hne hnws s.length s (Nat.le_refl _)

/-- `trim` only removes characters at the two ends. -/
theorem trimJs_decomp (s : List Char) : ∃ a b, s = a ++ trimJs s ++ b := by
  refine ⟨s.takeWhile isJsWS,
    ((s.dropWhile isJsWS).reverse.takeWhile isJsWS).reverse, ?_⟩
  conv_lhs => rw [← List.takeWhile_append_dropWhile isJsWS s]
  rw [List.append_assoc]
  congr 1
  have h2 := List.takeWhile_append_dropWhile isJsWS
    (s.dropWhile isJsWS).reverse
  calc s.dropWhile isJsWS
      = (s.dropWhile isJsWS).reverse.reverse :=
        (List.reverse_reverse _).symm
    _ = ((s.dropWhile isJsWS).reverse.takeWhile isJsWS ++
          (s.dropWhile isJsWS).reverse.dropWhile isJsWS).reverse := by
        rw [h2]
    _ = trimJs s ++
          ((s.dropWhile isJsWS).reverse.takeWhile isJsWS).reverse := by
        rw [List.reverse_append]
        rfl

theorem occursIn_of_occursIn_trimJs (p s : List Char)
    (h : occursIn p (trimJs s)) : occursIn p s := by
  rcases h with ⟨pre, post, heq⟩
  rcases trimJs_decomp s with ⟨a, b, hs⟩
  exact ⟨a ++ pre, post ++ b, by rw [hs, heq]; simp⟩

/-- C5. Deleting an asset of the selected section: the placeholder
looked up is the deleted asset's; the update removes exactly that asset
from the selected section's list, rewrites its content by replacing
every placeholder match (with its surrounding whitespace) by one blank
line and trimming the result, and leaves every other section untouched;
and no occurrence of the placeholder survives in any rewritten
content. -/
theorem deleteAsset_spec (chapters : List Chapter) (selId assetId : String)
    (sec0 : Section) (a0 : SectionAsset)
    (hsel : findSelectedSection chapters selId = some sec0)
    (hfound : sec0.assets.find? (fun a => a.id = assetId) = some a0)
    (hne : a0.placeholder ≠ [])
    (hnws : a0.placeholder.all (fun c => !isJsWS c) = true) :
    deletedPlaceholderOf chapters selId assetId = a0.placeholder ∧
    handleDeleteAsset chapters selId assetId =
      chapters.map (fun ch =>
        { ch with sections := ch.sections.map (fun sec =>
            if sec.id = selId then
              { sec with
                assets := sec.assets.filter (fun a => ¬ a.id = assetId)
                content_markdown := some (trimJs (replacePH a0.placeholder
                  (sec.content_markdown.getD []))) }
            else sec) }) ∧
    (∀ s : List Char,
      ¬ occursIn a0.placeholder (trimJs (replacePH a0.placeholder s))) := by
  have hph : deletedPlaceholderOf chapters selId assetId = a0.placeholder := by
    unfold deletedPlaceholderOf
    rw [hsel]
    dsimp only
    rw [hfound]
  refine ⟨hph, ?_, ?_⟩
  · unfold handleDeleteAsset
    rw [hph]
    apply List.map_congr_left
    intro ch _
    congr 1
    apply List.map_congr_left
    intro sec _
    by_cases hid : sec.id = selId
    · rw [if_pos hid, if_pos hid, if_neg hne]
    · rw [if_neg hid, if_neg hid]
  · intro s hocc
    exact replacePH_no_occ a0.placeholder s hne hnws
      (occursIn_of_occursIn_trimJs _ _ hocc)

/-- Witness for C5: a concrete one-chapter structure whose selected
section owns the asset `[IMAGE_1]`. -/
theorem deleteAsset_spec_witness :
    (findSelectedSection
        [⟨"c1", "b1", "Cap", 1, false,
          [⟨"s1", "c1", "Sec", 1,
            some [']', '\n', '\n', '[', 'I', 'M', 'A', 'G', 'E', '_', '1',
              ']', '\n', 'x'],
            "SUCESSO",
            [⟨"a1", ['[', 'I', 'M', 'A', 'G', 'E', '_', '1', ']'], none,
              "p"⟩]⟩]⟩] "s1" =
        some ⟨"s1", "c1", "Sec", 1,
          some [']', '\n', '\n', '[', 'I', 'M', 'A', 'G', 'E', '_', '1', ']',
            '\n', 'x'],
          "SUCESSO",
          [⟨"a1", ['[', 'I', 'M', 'A', 'G', 'E', '_', '1', ']'], none,
            "p"⟩]⟩ ∧
      (⟨"s1", "c1", "Sec", 1,
          some [']', '\n', '\n', '[', 'I', 'M', 'A', 'G', 'E', '_', '1', ']',
            '\n', 'x'],
          "SUCESSO",
          [⟨"a1", ['[', 'I', 'M', 'A', 'G', 'E', '_', '1', ']'], none,
            "p"⟩]⟩ : Section).assets.find?
          (fun a => a.id = "a1") =
        some ⟨"a1", ['[', 'I', 'M', 'A', 'G', 'E', '_', '1', ']'], none,
          "p"⟩ ∧
      (⟨"a1", ['[', 'I', 'M', 'A', 'G', 'E', '_', '1', ']'], none,
          "p"⟩ : SectionAsset).placeholder ≠ [] ∧
      (⟨"a1", ['[', 'I', 'M', 'A', 'G', 'E', '_', '1', ']'], none,
          "p"⟩ : SectionAsset).placeholder.all (fun c => !isJsWS c) = true) ∧
    deletedPlaceholderOf
        [⟨"c1", "b1", "Cap", 1, false,
          [⟨"s1", "c1", "Sec", 1,
            some [']', '\n', '\n', '[', 'I', 'M', 'A', 'G', 'E', '_', '1',
              ']', '\n', 'x'],
            "SUCESSO",
            [⟨"a1", ['[', 'I', 'M', 'A', 'G', 'E', '_', '1', ']'], none,
              "p"⟩]⟩]⟩] "s1" "a1" =
      ['[', 'I', 'M', 'A', 'G', 'E', '_', '1', ']'] :=
  ⟨⟨by decide, by decide, by decide, by decide⟩,
   (deleteAsset_spec
      [⟨"c1", "b1", "Cap", 1, false,
        [⟨"s1", "c1", "Sec", 1,
          some [']', '\n', '\n', '[', 'I', 'M', 'A', 'G', 'E', '_', '1', ']',
            '\n', 'x'],
          "SUCESSO",
          [⟨"a1", ['[', 'I', 'M', 'A', 'G', 'E', '_', '1', ']'], none,
            "p"⟩]⟩]⟩] "s1" "a1"
      ⟨"s1", "c1", "Sec", 1,
        some [']', '\n', '\n', '[', 'I', 'M', 'A', 'G', 'E', '_', '1', ']',
          '\n', 'x'],
        "SUCESSO",
        [⟨"a1", ['[', 'I', 'M', 'A', 'G', 'E', '_', '1', ']'], none, "p"⟩]⟩
      ⟨"a1", ['[', 'I', 'M', 'A', 'G', 'E', '_', '1', ']'], none, "p"⟩
      (by decide) (by decide) (by decide) (by decide)).1⟩

/-! ## BookStructure: structure editing (C8) -/

inductive MoveDir where
  | up
  | down
deriving DecidableEq, Repr

/-- The `forEach` renumbering: `order = position + 1`, counting from
`k`. -/
def renumSections : Nat → List Section → List Section
  | _, [] => []
  | k, sec :: rest => { sec with order := k + 1 } :: renumSections (k + 1) rest

def renumChapters : Nat → List Chapter → List Chapter
  | _, [] => []
  | k, ch :: rest => { ch with order := k + 1 } :: renumChapters (k + 1) rest

/-- JS `array.splice(n, 0, a)`: insert at position `n`, appending when
`n` exceeds the length. -/
def spliceInsert {α : Type} : List α → Nat → α → List α
  | xs, 0, a => a :: xs
  | [], _ + 1, a => [a]
  | x :: xs, n + 1, a => x :: spliceInsert xs n a

/-- `moveChapter`: moves the chapter at `index` one position up or
down, then renumbers all chapter orders; a target index outside the
list is rejected up front.  (The UI buttons only pass indices of
existing chapters; an out-of-range source index is modelled as a
no-op.) -/
def moveChapter (chs : List Chapter) (index : Nat) (dir : MoveDir) :
    List Chapter :=
  match dir with
  | MoveDir.up =>
      if index = 0 then chs
      else if chs.length ≤ index - 1 then chs
      else
        match chs[index]? with
        | none => chs
        | some moved =>
            renumChapters 0 (spliceInsert (chs.eraseIdx index) (index - 1) moved)
  | MoveDir.down =>
      if chs.length ≤ index + 1 then chs
      else
        match chs[index]? with
        | none => chs
        | some moved =>
            renumChapters 0 (spliceInsert (chs.eraseIdx index) (index + 1) moved)

/-- The splice-and-renumber step of `moveSection` once the guards
passed. -/
def moveSectionAt (chs : List Chapter) (chapterIndex : Nat) (ch : Chapter)
    (sectionIndex newIndex : Nat) : List Chapter :=
  match ch.sections[sectionIndex]? with
  | none => chs
  | some moved =>
      let newSecs := renumSections 0
        (spliceInsert (ch.sections.eraseIdx sectionIndex) newIndex moved)
      chs.set chapterIndex { ch with sections := newSecs }

/-- `moveSection`: moves a section one position within its chapter and
renumbers that chapter's section orders; a target index outside the
chapter is rejected up front. -/
def moveSection (chs : List Chapter) (chapterIndex sectionIndex : Nat)
    (dir : MoveDir) : List Chapter :=
  match chs[chapterIndex]? with
  | none => chs
  | some ch =>
      match dir with
      | MoveDir.up =>
          if sectionIndex = 0 then chs
          else if ch.sections.length ≤ sectionIndex - 1 then chs
          else moveSectionAt chs chapterIndex ch sectionIndex (sectionIndex - 1)
      | MoveDir.down =>
          if ch.sections.length ≤ sectionIndex + 1 then chs
          else moveSectionAt chs chapterIndex ch sectionIndex (sectionIndex + 1)

/-- `moveSectionToChapter`: rejects a falsy (empty) target id, a target
chapter that does not exist, and a target equal to the source; otherwise
removes the section from the source chapter, renumbers the source's
sections, appends the section (with its `chapter_id` rewritten) to the
target chapter and renumbers the target's sections. -/
def moveSectionToChapter (chs : List Chapter)
    (sourceChapterIndex sectionIndex : Nat) (targetChapterId : String) :
    List Chapter :=
  if targetChapterId = "" then chs
  else
    match chs.findIdx? (fun ch => ch.id = targetChapterId) with
    | none => chs
    | some targetIdx =>
        if targetIdx = sourceChapterIndex then chs
        else
          match chs[sourceChapterIndex]? with
          | none => chs
          | some srcCh =>
              match srcCh.sections[sectionIndex]? with
              | none => chs
              | some moved =>
                  let chs1 := chs.set sourceChapterIndex
                    { srcCh with sections :=
                        renumSections 0 (srcCh.sections.eraseIdx sectionIndex) }
                  match chs1[targetIdx]? with
                  | none => chs1
                  | some tgtCh =>
                      let newTgtSecs := renumSections 0
                        (tgtCh.sections ++
                          [{ moved with chapter_id := targetChapterId }])
                      chs1.set targetIdx { tgtCh with sections := newTgtSecs }

def chapterIds (chs : List Chapter) : List String :=
  chs.map (fun ch => ch.id)

def secIdsOf (ch : Chapter) : List String :=
  ch.sections.map (fun sec => sec.id)

/-- The ids of all sections across all chapters, in display order. -/
def sectionIds (chs : List Chapter) : List String :=
  chs.flatMap secIdsOf

/-- The section orders of one chapter are `k+1, k+2, …` in list
position. -/
def secOrdersOk : Nat → List Section → Bool
  | _, [] => true
  | k, sec :: rest => (sec.order = k + 1) && secOrdersOk (k + 1) rest

def chOrdersOk : Nat → List Chapter → Bool
  | _, [] => true
  | k, ch :: rest => (ch.order = k + 1) && chOrdersOk (k + 1) rest

/-- Orders are consecutive from 1: for the chapters, and for the
sections inside every chapter. -/
def structOk (chs : List Chapter) : Bool :=
  chOrdersOk 0 chs && chs.all (fun ch => secOrdersOk 0 ch.sections)

theorem renumChapters_chOrdersOk (l : List Chapter) :
    ∀ k, chOrdersOk k (renumChapters k l) = true := by
  induction l with
  | nil => intro k; rfl
  | cons ch t ih =>
      intro k
      simp [renumChapters, chOrdersOk, ih (k + 1)]

theorem renumChapters_ids (l : List Chapter) :
    ∀ k, chapterIds (renumChapters k l) = chapterIds l := by
  induction l with
  | nil => intro k; rfl
  | cons ch t ih =>
      intro k
      simp [renumChapters, chapterIds] at ih ⊢
      exact ih (k + 1)

theorem renumChapters_sectionIds (l : List Chapter) :
    ∀ k, sectionIds (renumChapters k l) = sectionIds l := by
  induction l with
  | nil => intro k; rfl
  | cons ch t ih =>
      intro k
      simp only [renumChapters, sectionIds, List.flatMap_cons] at ih ⊢
      rw [ih (k + 1)]
      rfl

theorem renumChapters_all_secOk (l : List Chapter) :
    ∀ k, (renumChapters k l).all (fun ch => secOrdersOk 0 ch.sections) =
      l.all (fun ch => secOrdersOk 0 ch.sections) := by
  induction l with
  | nil => intro k; rfl
  | cons ch t ih =>
      intro k
      simp only [renumChapters, List.all_cons]
      rw [ih (k + 1)]

theorem renumSections_secOrdersOk (l : List Section) :
    ∀ k, secOrdersOk k (renumSections k l) = true := by
  induction l with
  | nil => intro k; rfl
  | cons sec t ih =>
      intro k
      simp [renumSections, secOrdersOk, ih (k + 1)]

theorem renumSections_ids (l : List Section) :
    ∀ k, (renumSections k l).map (fun sec => sec.id) =
      l.map (fun sec => sec.id) := by
  induction l with
  | nil => intro k; rfl
  | cons sec t ih =>
      intro k
      simp only [renumSections, List.map_cons]
      rw [ih (k + 1)]

theorem spliceInsert_perm {α : Type} (a : α) :
    ∀ (l : List α) (n : Nat), (spliceInsert l n a).Perm (a :: l) := by
  intro l
  induction l with
  | nil =>
      intro n
      cases n <;> exact List.Perm.refl _
  | cons x xs ih =>
      intro n
      cases n with
      | zero => exact List.Perm.refl _
      | succ n =>
          exact List.Perm.trans (List.Perm.cons x (ih n))
            (List.Perm.swap a x xs)

theorem getElem?_perm_eraseIdx {α : Type} :
    ∀ (l : List α) (i : Nat) (x : α), l[i]? = some x →
      l.Perm (x :: l.eraseIdx i) := by
  intro l
  induction l with
  | nil => intro i x h; cases h
  | cons a t ih =>
      intro i x h
      cases i with
      | zero =>
          have h1 : a = x := by simpa using h
          rw [← h1]
          exact List.Perm.refl _
      | succ i =>
          rw [List.getElem?_cons_succ] at h
          have hperm := ih i x h
          exact List.Perm.trans (List.Perm.cons a hperm)
            (List.Perm.swap x a _)

theorem all_of_perm {α : Type} (p : α → Bool) {l l' : List α}
    (h : l.Perm l') (ha : l.all p = true) : l'.all p = true := by
  rw [List.all_eq_true] at ha ⊢
  intro x hx
  exact ha x (h.mem_iff.mpr hx)

theorem set_getElem?_self {α : Type} :
    ∀ (l : List α) (i : Nat) (x : α), l[i]? = some x → l.set i x = l := by
  intro l
  induction l with
  | nil => intro i x h; cases h
  | cons a t ih =>
      intro i x h
      cases i with
      | zero =>
          have h1 : a = x := by simpa using h
          rw [List.set_cons_zero, ← h1]
      | succ i =>
          rw [List.getElem?_cons_succ] at h
          rw [List.set_cons_succ, ih i x h]

theorem chOrdersOk_set (x : Chapter) :
    ∀ (l : List Chapter) (i k : Nat), chOrdersOk k l = true →
      (∀ ch, l[i]? = some ch → x.order = ch.order) →
      chOrdersOk k (l.set i x) = true := by
  intro l
  induction l with
  | nil => intro i k h _; exact h
  | cons ch t ih =>
      intro i k h hx
      simp only [chOrdersOk, Bool.and_eq_true, decide_eq_true_eq] at h
      cases i with
      | zero =>
          rw [List.set_cons_zero]
          simp only [chOrdersOk, Bool.and_eq_true, decide_eq_true_eq]
          exact ⟨by rw [hx ch (by simp), h.1], h.2⟩
      | succ i =>
          rw [List.set_cons_succ]
          simp only [chOrdersOk, Bool.and_eq_true, decide_eq_true_eq]
          refine ⟨h.1, ih i (k + 1) h.2 ?_⟩
          intro ch2 hch2
          exact hx ch2 (by rw [← hch2, List.getElem?_cons_succ])

theorem all_set {α : Type} (p : α → Bool) (x : α) :
    ∀ (l : List α) (i : Nat), l.all p = true → p x = true →
      (l.set i x).all p = true := by
  intro l
  induction l with
  | nil => intro i h _; exact h
  | cons a t ih =>
      intro i h hx
      simp only [List.all_cons, Bool.and_eq_true] at h
      cases i with
      | zero =>
          rw [List.set_cons_zero]
          simp only [List.all_cons, Bool.and_eq_true]
          exact ⟨hx, h.2⟩
      | succ i =>
          rw [List.set_cons_succ]
          simp only [List.all_cons, Bool.and_eq_true]
          exact ⟨h.1, ih i h.2 hx⟩

theorem count_sectionIds_set (x : Chapter) :
    ∀ (l : List Chapter) (i : Nat) (ch : Chapter), l[i]? = some ch →
      ∀ a : String,
        (sectionIds (l.set i x)).count a + (secIdsOf ch).count a =
          (sectionIds l).count a + (secIdsOf x).count a := by
  intro l
  induction l with
  | nil => intro i ch h; cases h
  | cons c0 t ih =>
      intro i ch h a
      cases i with
      | zero =>
          have h1 : c0 = ch := by simpa using h
          rw [List.set_cons_zero]
          simp only [sectionIds, List.flatMap_cons, List.count_append, h1]
          omega
      | succ i =>
          rw [List.getElem?_cons_succ] at h
          rw [List.set_cons_succ]
          simp only [sectionIds, List.flatMap_cons, List.count_append]
          have := ih i ch h a
          simp only [sectionIds] at this
          omega

theorem count_sectionIds_spliceInsert (ch : Chapter) :
    ∀ (l : List Chapter) (n : Nat) (a : String),
      (sectionIds (spliceInsert l n ch)).count a =
        (secIdsOf ch).count a + (sectionIds l).count a := by
  intro l
  induction l with
  | nil =>
      intro n a
      cases n <;>
        simp [spliceInsert, sectionIds, List.count_append]
  | cons c0 t ih =>
      intro n a
      cases n with
      | zero =>
          simp [spliceInsert, sectionIds, List.flatMap_cons, List.count_append]
      | succ n =>
          simp only [spliceInsert, sectionIds, List.flatMap_cons,
            List.count_append]
          have := ih n a
          simp only [sectionIds] at this
          omega

theorem count_sectionIds_eraseIdx :
    ∀ (l : List Chapter) (i : Nat) (ch : Chapter), l[i]? = some ch →
      ∀ a : String,
        (sectionIds l).count a =
          (secIdsOf ch).count a + (sectionIds (l.eraseIdx i)).count a := by
  intro l
  induction l with
  | nil => intro i ch h; cases h
  | cons c0 t ih =>
      intro i ch h a
      cases i with
      | zero =>
          have h1 : c0 = ch := by simpa using h
          rw [← h1]
          simp [sectionIds, List.eraseIdx, List.flatMap_cons,
            List.count_append]
      | succ i =>
          rw [List.getElem?_cons_succ] at h
          simp only [sectionIds, List.eraseIdx, List.flatMap_cons,
            List.count_append]
          have := ih i ch h a
          simp only [sectionIds] at this
          omega

theorem findIdx?_some_facts {α : Type} (p : α → Bool) :
    ∀ (l : List α) (s i : Nat), List.findIdx? p l s = some i →
      s ≤ i ∧ i - s < l.length ∧ ∃ x, l[i - s]? = some x ∧ p x = true := by
  intro l
  induction l with
  | nil => intro s i h; cases h
  | cons a t ih =>
      intro s i h
      rw [List.findIdx?_cons] at h
      by_cases hpa : p a = true
      · rw [if_pos hpa] at h
        injection h with h1
        subst h1
        refine ⟨Nat.le_refl _, by simp, a, ?_, hpa⟩
        simp
      · rw [if_neg hpa] at h
        rcases ih (s + 1) i h with ⟨h1, h2, x, h3, h4⟩
        refine ⟨by omega, by simp only [List.length_cons]; omega, x, ?_, h4⟩
        have hi : i - s = (i - (s + 1)) + 1 := by omega
        rw [hi, List.getElem?_cons_succ]
        exact h3

theorem chapterIds_set :
    ∀ (l : List Chapter) (i : Nat) (x ch : Chapter), l[i]? = some ch →
      x.id = ch.id → chapterIds (l.set i x) = chapterIds l := by
  intro l
  induction l with
  | nil => intro i x ch h; cases h
  | cons c0 t ih =>
      intro i x ch h hid
      cases i with
      | zero =>
          have h1 : c0 = ch := by simpa using h
          rw [List.set_cons_zero]
          simp only [chapterIds, List.map_cons]
          rw [hid, h1]
      | succ i =>
          rw [List.getElem?_cons_succ] at h
          rw [List.set_cons_succ]
          simp only [chapterIds, List.map_cons] at ih ⊢
          rw [ih i x ch h hid]

/-- The common splice-move-renumber core of `moveChapter`. -/
theorem moveChapter_core (chs : List Chapter) (index n : Nat)
    (moved : Chapter) (h : chs[index]? = some moved) :
    (chapterIds (renumChapters 0
        (spliceInsert (chs.eraseIdx index) n moved))).Perm (chapterIds chs) ∧
    (sectionIds (renumChapters 0
        (spliceInsert (chs.eraseIdx index) n moved))).Perm (sectionIds chs) ∧
    (chs.all (fun ch => secOrdersOk 0 ch.sections) = true →
      structOk (renumChapters 0
        (spliceInsert (chs.eraseIdx index) n moved)) = true) := by
  have hperm : (spliceInsert (chs.eraseIdx index) n moved).Perm
      (moved :: chs.eraseIdx index) := spliceInsert_perm moved _ n
  have herase : chs.Perm (moved :: chs.eraseIdx index) :=
    getElem?_perm_eraseIdx chs index moved h
  refine ⟨?_, ?_, ?_⟩
  · rw [renumChapters_ids]
    show ((spliceInsert (chs.eraseIdx index) n moved).map _).Perm
      (chs.map _)
    exact (hperm.map _).trans (herase.map _).symm
  · rw [renumChapters_sectionIds]
    rw [List.perm_iff_count]
    intro a
    have hL := count_sectionIds_spliceInsert moved (chs.eraseIdx index) n a
    have hR := count_sectionIds_eraseIdx chs index moved h a
    omega
  · intro hall
    unfold structOk
    rw [Bool.and_eq_true]
    refine ⟨renumChapters_chOrdersOk _ 0, ?_⟩
    rw [renumChapters_all_secOk]
    exact all_of_perm _ hperm.symm (all_of_perm _ herase hall)

/-- The splice-move-renumber core of `moveSection`. -/
theorem moveSectionAt_spec (chs : List Chapter) (ci : Nat) (ch : Chapter)
    (si n : Nat) (moved : Section) (hch : chs[ci]? = some ch)
    (hsec : ch.sections[si]? = some moved) :
    chapterIds (moveSectionAt chs ci ch si n) = chapterIds chs ∧
    (sectionIds (moveSectionAt chs ci ch si n)).Perm (sectionIds chs) ∧
    (structOk chs = true → structOk (moveSectionAt chs ci ch si n) = true) := by
  have hred : moveSectionAt chs ci ch si n =
      chs.set ci { ch with sections := (renumSections 0
        (spliceInsert (ch.sections.eraseIdx si) n moved)) } := by
    unfold moveSectionAt
    rw [hsec]
  have hsecperm : (secIdsOf { ch with sections := (renumSections 0
      (spliceInsert (ch.sections.eraseIdx si) n moved)) }).Perm
      (secIdsOf ch) := by
    show ((renumSections 0
      (spliceInsert (ch.sections.eraseIdx si) n moved)).map _).Perm _
    rw [renumSections_ids]
    have h1 := (spliceInsert_perm moved (ch.sections.eraseIdx si) n).map
      (fun sec => sec.id)
    have h2 := (getElem?_perm_eraseIdx ch.sections si moved hsec).map
      (fun sec => sec.id)
    exact h1.trans h2.symm
  rw [hred]
  refine ⟨?_, ?_, ?_⟩
  · exact chapterIds_set chs ci _ ch hch rfl
  · rw [List.perm_iff_count]
    intro a
    have h1 := count_sectionIds_set
      { ch with sections := (renumSections 0
        (spliceInsert (ch.sections.eraseIdx si) n moved)) } chs ci ch hch a
    have h2 := List.perm_iff_count.mp hsecperm a
    omega
  · intro hok
    unfold structOk at hok ⊢
    rw [Bool.and_eq_true] at hok ⊢
    refine ⟨?_, ?_⟩
    · refine chOrdersOk_set _ chs ci 0 hok.1 ?_
      intro ch2 hch2
      rw [hch] at hch2
      injection hch2 with h2
      rw [← h2]
    · refine all_set _ _ chs ci hok.2 ?_
      exact renumSections_secOrdersOk _ 0

/-- C8. The structure-editing moves preserve content and keep
orders consecutive.  `moveChapter` (on a valid index) permutes the
chapter ids, leaves the multiset of section ids unchanged, preserves
the consecutive-orders invariant, and is a no-op when the target index
falls outside the list.  `moveSection` (on a valid chapter and section)
leaves the chapter ids unchanged, permutes only that chapter's section
ids, preserves the invariant, and is a no-op when the target index
falls outside the chapter.  `moveSectionToChapter` leaves the chapter
ids unchanged, moves exactly one section id between chapters (the
multiset is preserved), preserves the invariant, and is a no-op when
the target id is empty, names no existing chapter, or names the source
chapter. -/
theorem moveOps_spec :
    (∀ (chs : List Chapter) (index : Nat) (dir : MoveDir),
      index < chs.length →
        (chapterIds (moveChapter chs index dir)).Perm (chapterIds chs) ∧
        (sectionIds (moveChapter chs index dir)).Perm (sectionIds chs) ∧
        (structOk chs = true → structOk (moveChapter chs index dir) = true)) ∧
    (∀ (chs : List Chapter) (index : Nat),
      moveChapter chs 0 MoveDir.up = chs ∧
      (chs.length ≤ index + 1 → moveChapter chs index MoveDir.down = chs)) ∧
    (∀ (chs : List Chapter) (ci si : Nat) (dir : MoveDir) (ch : Chapter),
      chs[ci]? = some ch → si < ch.sections.length →
        chapterIds (moveSection chs ci si dir) = chapterIds chs ∧
        (sectionIds (moveSection chs ci si dir)).Perm (sectionIds chs) ∧
        (structOk chs = true → structOk (moveSection chs ci si dir) = true) ∧
        (si = 0 → moveSection chs ci si MoveDir.up = chs) ∧
        (ch.sections.length ≤ si + 1 →
          moveSection chs ci si MoveDir.down = chs)) ∧
    (∀ (chs : List Chapter) (srcIdx secIdx : Nat) (tid : String)
        (srcCh : Chapter),
      chs[srcIdx]? = some srcCh → secIdx < srcCh.sections.length →
        chapterIds (moveSectionToChapter chs srcIdx secIdx tid) =
          chapterIds chs ∧
        (sectionIds (moveSectionToChapter chs srcIdx secIdx tid)).Perm
          (sectionIds chs) ∧
        (structOk chs = true →
          structOk (moveSectionToChapter chs srcIdx secIdx tid) = true) ∧
        (tid = "" → moveSectionToChapter chs srcIdx secIdx tid = chs) ∧
        (chs.findIdx? (fun c => c.id = tid) = none →
          moveSectionToChapter chs srcIdx secIdx tid = chs) ∧
        (chs.findIdx? (fun c => c.id = tid) = some srcIdx →
          moveSectionToChapter chs srcIdx secIdx tid = chs)) := by
  refine ⟨?_, ?_, ?_, ?_⟩
  · intro chs index dir hidx
    have hsome : chs[index]? = some chs[index] := List.getElem?_eq_getElem hidx
    cases dir with
    | up =>
        by_cases h0 : index = 0
        · simp only [moveChapter, if_pos h0]
          exact ⟨List.Perm.refl _, List.Perm.refl _, fun h => h⟩
        · by_cases h1 : chs.length ≤ index - 1
          · simp only [moveChapter, if_neg h0, if_pos h1]
            exact ⟨List.Perm.refl _, List.Perm.refl _, fun h => h⟩
          · have hred : moveChapter chs index MoveDir.up =
                renumChapters 0 (spliceInsert (chs.eraseIdx index)
                  (index - 1) chs[index]) := by
              simp only [moveChapter, if_neg h0, if_neg h1]
              rw [hsome]
            rw [hred]
            have hcore := moveChapter_core chs index (index - 1)
              chs[index] hsome
            refine ⟨hcore.1, hcore.2.1, ?_⟩
            intro hok
            unfold structOk at hok
            rw [Bool.and_eq_true] at hok
            exact hcore.2.2 hok.2
    | down =>
        by_cases h1 : chs.length ≤ index + 1
        · simp only [moveChapter, if_pos h1]
          exact ⟨List.Perm.refl _, List.Perm.refl _, fun h => h⟩
        · have hred : moveChapter chs index MoveDir.down =
              renumChapters 0 (spliceInsert (chs.eraseIdx index)
                (index + 1) chs[index]) := by
            simp only [moveChapter, if_neg h1]
            rw [hsome]
          rw [hred]
          have hcore := moveChapter_core chs index (index + 1)
            chs[index] hsome
          refine ⟨hcore.1, hcore.2.1, ?_⟩
          intro hok
          unfold structOk at hok
          rw [Bool.and_eq_true] at hok
          exact hcore.2.2 hok.2
  · intro chs index
    constructor
    · simp [moveChapter]
    · intro h
      simp [moveChapter, if_pos h]
  · intro chs ci si dir ch hch hsi
    have hredm : ∀ d, moveSection chs ci si d =
        match d with
        | MoveDir.up =>
            if si = 0 then chs
            else if ch.sections.length ≤ si - 1 then chs
            else moveSectionAt chs ci ch si (si - 1)
        | MoveDir.down =>
            if ch.sections.length ≤ si + 1 then chs
            else moveSectionAt chs ci ch si (si + 1) := by
      intro d
      unfold moveSection
      rw [hch]
    have hsec : ch.sections[si]? = some ch.sections[si] :=
      List.getElem?_eq_getElem hsi
    have hnoopup : si = 0 → moveSection chs ci si MoveDir.up = chs := by
      intro h0
      rw [hredm MoveDir.up]
      simp [h0]
    have hnoopdown : ch.sections.length ≤ si + 1 →
        moveSection chs ci si MoveDir.down = chs := by
      intro hle
      rw [hredm MoveDir.down]
      simp [hle]
    cases dir with
    | up =>
        have htriple : chapterIds (moveSection chs ci si MoveDir.up) =
              chapterIds chs ∧
            (sectionIds (moveSection chs ci si MoveDir.up)).Perm
              (sectionIds chs) ∧
            (structOk chs = true →
              structOk (moveSection chs ci si MoveDir.up) = true) := by
          by_cases h0 : si = 0
          · rw [hnoopup h0]
            exact ⟨rfl, List.Perm.refl _, fun h => h⟩
          · have h1 : ¬ ch.sections.length ≤ si - 1 := by omega
            have he : moveSection chs ci si MoveDir.up =
                moveSectionAt chs ci ch si (si - 1) := by
              rw [hredm MoveDir.up]
              dsimp only
              rw [if_neg h0, if_neg h1]
            rw [he]
            have hat := moveSectionAt_spec chs ci ch si (si - 1)
              ch.sections[si] hch hsec
            exact ⟨hat.1, hat.2.1, hat.2.2⟩
        exact ⟨htriple.1, htriple.2.1, htriple.2.2, hnoopup, hnoopdown⟩
    | down =>
        have htriple : chapterIds (moveSection chs ci si MoveDir.down) =
              chapterIds chs ∧
            (sectionIds (moveSection chs ci si MoveDir.down)).Perm
              (sectionIds chs) ∧
            (structOk chs = true →
              structOk (moveSection chs ci si MoveDir.down) = true) := by
          by_cases h1 : ch.sections.length ≤ si + 1
          · rw [hnoopdown h1]
            exact ⟨rfl, List.Perm.refl _, fun h => h⟩
          · have he : moveSection chs ci si MoveDir.down =
                moveSectionAt chs ci ch si (si + 1) := by
              rw [hredm MoveDir.down]
              dsimp only
              rw [if_neg h1]
            rw [he]
            have hat := moveSectionAt_spec chs ci ch si (si + 1)
              ch.sections[si] hch hsec
            exact ⟨hat.1, hat.2.1, hat.2.2⟩
        exact ⟨htriple.1, htriple.2.1, htriple.2.2, hnoopup, hnoopdown⟩
  · intro chs srcIdx secIdx tid srcCh hsrc hsec
    by_cases htid : tid = ""
    · rw [show moveSectionToChapter chs srcIdx secIdx tid = chs by
        simp [moveSectionToChapter, htid]]
      exact ⟨rfl, List.Perm.refl _, fun h => h, fun _ => rfl, fun _ => rfl,
        fun _ => rfl⟩
    · cases hfind : chs.findIdx? (fun c => c.id = tid) with
      | none =>
          rw [show moveSectionToChapter chs srcIdx secIdx tid = chs by
            simp only [moveSectionToChapter, if_neg htid]
            rw [hfind]]
          exact ⟨rfl, List.Perm.refl _, fun h => h, fun h => absurd h htid,
            fun _ => rfl, fun _ => rfl⟩
      | some tgtIdx =>
          by_cases heq : tgtIdx = srcIdx
          · rw [show moveSectionToChapter chs srcIdx secIdx tid = chs by
              simp only [moveSectionToChapter, if_neg htid]
              rw [hfind]
              simp [heq]]
            exact ⟨rfl, List.Perm.refl _, fun h => h, fun h => absurd h htid,
              fun h => Option.noConfusion h, fun _ => rfl⟩
          · rcases findIdx?_some_facts _ chs 0 tgtIdx hfind with
              ⟨_, hlt, tgtCh, htgt0, _⟩
            rw [Nat.sub_zero] at hlt htgt0
            have hsecmoved : srcCh.sections[secIdx]? =
                some srcCh.sections[secIdx] := List.getElem?_eq_getElem hsec
            have hset1 : (chs.set srcIdx { srcCh with sections :=
                (renumSections 0 (srcCh.sections.eraseIdx secIdx)) })[tgtIdx]? =
                some tgtCh := by
              rw [List.getElem?_set_ne (Ne.symm heq)]
              exact htgt0
            have hred : moveSectionToChapter chs srcIdx secIdx tid =
                (chs.set srcIdx { srcCh with sections :=
                  (renumSections 0 (srcCh.sections.eraseIdx secIdx)) }).set
                  tgtIdx { tgtCh with sections := (renumSections 0
                    (tgtCh.sections ++ [{ srcCh.sections[secIdx] with
                      chapter_id := tid }])) } := by
              simp only [moveSectionToChapter, if_neg htid]
              rw [hfind]
              simp only [if_neg heq]
              rw [hsrc]
              simp only
              rw [hsecmoved]
              simp only
              rw [hset1]
            rw [hred]
            have hcnt1 := fun a => count_sectionIds_set
              { srcCh with sections :=
                (renumSections 0 (srcCh.sections.eraseIdx secIdx)) }
              chs srcIdx srcCh hsrc a
            have hcnt2 := fun a => count_sectionIds_set
              { tgtCh with sections := (renumSections 0
                (tgtCh.sections ++ [{ srcCh.sections[secIdx] with
                  chapter_id := tid }])) }
              (chs.set srcIdx { srcCh with sections :=
                (renumSections 0 (srcCh.sections.eraseIdx secIdx)) })
              tgtIdx tgtCh hset1 a
            have hsrcids : ∀ a : String,
                (secIdsOf srcCh).count a =
                  (if srcCh.sections[secIdx].id = a then 1 else 0) +
                    (secIdsOf { srcCh with sections :=
                      (renumSections 0
                        (srcCh.sections.eraseIdx secIdx)) }).count a := by
              intro a
              have hp := (getElem?_perm_eraseIdx srcCh.sections secIdx
                srcCh.sections[secIdx] hsecmoved).map (fun sec => sec.id)
              have hc := List.perm_iff_count.mp hp a
              show (srcCh.sections.map _).count a = _
              rw [hc]
              show ((srcCh.sections[secIdx].id ::
                (srcCh.sections.eraseIdx secIdx).map _)).count a = _
              rw [List.count_cons]
              show _ = _ + ((renumSections 0
                (srcCh.sections.eraseIdx secIdx)).map _).count a
              rw [renumSections_ids]
              by_cases hae : srcCh.sections[secIdx].id = a
              · simp [hae, secIdsOf, Nat.add_comm]
              · have hae2 : ¬ a = srcCh.sections[secIdx].id :=
                  fun h => hae h.symm
                simp [hae, hae2, secIdsOf]
            have htgtids : ∀ a : String,
                (secIdsOf { tgtCh with sections := (renumSections 0
                  (tgtCh.sections ++ [{ srcCh.sections[secIdx] with
                    chapter_id := tid }])) }).count a =
                  (secIdsOf tgtCh).count a +
                    (if srcCh.sections[secIdx].id = a then 1 else 0) := by
              intro a
              show ((renumSections 0 (tgtCh.sections ++
                [{ srcCh.sections[secIdx] with chapter_id := tid }])).map
                  _).count a = _
              rw [renumSections_ids, List.map_append, List.count_append]
              show _ + ([srcCh.sections[secIdx].id]).count a = _
              rw [List.count_singleton]
              by_cases hae : srcCh.sections[secIdx].id = a
              · simp [hae, secIdsOf]
              · have hae2 : ¬ a = srcCh.sections[secIdx].id :=
                  fun h => hae h.symm
                simp [hae, hae2, secIdsOf]
            refine ⟨?_, ?_, ?_, fun h => absurd h htid,
              fun h => Option.noConfusion h,
              fun h => absurd (Option.some.inj h) heq⟩
            · rw [chapterIds_set _ tgtIdx
                { tgtCh with sections := (renumSections 0
                  (tgtCh.sections ++ [{ srcCh.sections[secIdx] with
                    chapter_id := tid }])) } tgtCh hset1 rfl,
                chapterIds_set chs srcIdx
                { srcCh with sections :=
                  (renumSections 0 (srcCh.sections.eraseIdx secIdx)) }
                srcCh hsrc rfl]
            · rw [List.perm_iff_count]
              intro a
              have h1 := hcnt1 a
              have h2 := hcnt2 a
              have h3 := hsrcids a
              have h4 := htgtids a
              omega
            · intro hok
              unfold structOk at hok ⊢
              rw [Bool.and_eq_true] at hok ⊢
              refine ⟨?_, ?_⟩
              · refine chOrdersOk_set _ _ tgtIdx 0 ?_ ?_
                · refine chOrdersOk_set _ chs srcIdx 0 hok.1 ?_
                  intro ch2 hch2
                  rw [hsrc] at hch2
                  injection hch2 with h2
                  rw [← h2]
                · intro ch2 hch2
                  rw [hset1] at hch2
                  injection hch2 with h2
                  rw [← h2]
              · refine all_set _ _ _ tgtIdx ?_ ?_
                · refine all_set _ _ chs srcIdx hok.2 ?_
                  exact renumSections_secOrdersOk _ 0
                · exact renumSections_secOrdersOk _ 0

/-- Witness for C8: on a concrete two-chapter structure, moving the
first chapter down preserves the chapter-id multiset. -/
theorem moveOps_spec_witness :
    ((0 : Nat) <
        ([⟨"c1", "b1", "A", 1, false,
            [⟨"s1", "c1", "S", 1, none, "PENDENTE", []⟩]⟩,
          ⟨"c2", "b1", "B", 2, false, []⟩] : List Chapter).length) ∧
    (chapterIds (moveChapter
        [⟨"c1", "b1", "A", 1, false,
          [⟨"s1", "c1", "S", 1, none, "PENDENTE", []⟩]⟩,
         ⟨"c2", "b1", "B", 2, false, []⟩] 0 MoveDir.down)).Perm
      (chapterIds
        [⟨"c1", "b1", "A", 1, false,
          [⟨"s1", "c1", "S", 1, none, "PENDENTE", []⟩]⟩,
         ⟨"c2", "b1", "B", 2, false, []⟩]) :=
  ⟨by decide,
   (moveOps_spec.1
      [⟨"c1", "b1", "A", 1, false,
        [⟨"s1", "c1", "S", 1, none, "PENDENTE", []⟩]⟩,
       ⟨"c2", "b1", "B", 2, false, []⟩] 0 MoveDir.down (by decide)).1⟩

/-- Witness for C10: a concrete mixed store cleared for book `"b1"`. -/
theorem clearCompleted_spec_witness :
    (⟨"a", "b1", "f", UStatus.pending, 0, none, 1⟩ : QItem) ∈
      ([⟨"a", "b1", "f", UStatus.pending, 0, none, 1⟩,
        ⟨"b", "b1", "g", UStatus.success, 100, none, 2⟩] : Store) ∧
    (⟨"a", "b1", "f", UStatus.pending, 0, none, 1⟩ : QItem) ∈
      clearCompleted
        [⟨"a", "b1", "f", UStatus.pending, 0, none, 1⟩,
         ⟨"b", "b1", "g", UStatus.success, 100, none, 2⟩] (some "b1") :=
  ⟨by decide,
   (clearCompleted_spec
      [⟨"a", "b1", "f", UStatus.pending, 0, none, 1⟩,
       ⟨"b", "b1", "g", UStatus.success, 100, none, 2⟩] (some "b1")).2.2.1
      ⟨"a", "b1", "f", UStatus.pending, 0, none, 1⟩ (by decide) (by decide)⟩

end Lectria
